import Mathlib

/-!
# Verification of the BIP39 mnemonic codec

A shallow embedding of the `rust-bip39` crate (`src/lib.rs`, `src/pbkdf2.rs`)
and proofs about it.  Rust strings are modelled as lists of Unicode scalar
values (`Str := List Nat`), byte buffers as lists of naturals below 256, and
machine integers as naturals reduced modulo `2 ^ w` at the points where the
source relies on wrapping.  Fallible Rust code returns `Except`; a reachable
panic (an `unwrap` of `None`) is modelled by `Option.none` around the result.

The per-language word-list data, `Language::all`, `Language::find_word`,
`Language::word_list` and `Language::unique_words` are not part of the
provided sources (only their callers are); they are modelled from the spec as
an abstract configuration (`Config`) carrying, per language, a bidirectional
word table, following the spec's Word Table description.
-/

set_option maxRecDepth 4096

/-- Rust `&str`, as the list of Unicode scalar values of the string. -/
abbrev Str := List Nat

/-- `char::is_whitespace` of the Rust standard library: the Unicode
`White_Space` property, written out as the finite set of code points. -/
def isWs (c : Nat) : Bool :=
  c == 0x9 || c == 0xA || c == 0xB || c == 0xC || c == 0xD || c == 0x20 ||
  c == 0x85 || c == 0xA0 || c == 0x1680 || (0x2000 ≤ c && c ≤ 0x200A) ||
  c == 0x2028 || c == 0x2029 || c == 0x202F || c == 0x205F || c == 0x3000

/-- Worker for `str::split_whitespace`: `cur` is the word currently being
read, in reverse order. -/
def splitWsGo : Str → Str → List Str
  | [], cur => if cur.isEmpty then [] else [cur.reverse]
  | c :: cs, cur =>
    if isWs c then
      if cur.isEmpty then splitWsGo cs [] else cur.reverse :: splitWsGo cs []
    else splitWsGo cs (c :: cur)

/-- `str::split_whitespace`, collected into a list: the maximal runs of
non-whitespace characters, in order.  Never yields an empty word. -/
def splitWhitespace (s : Str) : List Str := splitWsGo s []

/-- `Vec::join(" ")`: words interleaved with a single ASCII space. -/
def joinWords : List Str → Str
  | [] => []
  | [w] => w
  | w :: ws => w ++ 32 :: joinWords ws

/-- Truncation to a 32-bit machine word (`as u32` / u32 wrap-around). -/
def w32 (n : Nat) : Nat := n % 4294967296

/-- The value of a bit string, most significant bit first. -/
def ofBits (bs : List Bool) : Nat :=
  bs.foldl (fun a b => 2 * a + (if b then 1 else 0)) 0

/-- The 8 bits of a byte, most significant first; bit `j` is
`(b & (1 << (7 - j))) > 0` exactly as the source tests it. -/
def byteBits (b : Nat) : List Bool :=
  (List.range 8).map fun j => b &&& (1 <<< (7 - j)) != 0

/-- The 11 bits of a word index, most significant first; bit `j` is
`idx >> (10 - j) & 1 == 1` exactly as `validate_in` computes it. -/
def idxBits (idx : Nat) : List Bool :=
  (List.range 11).map fun j => (idx >>> (10 - j)) &&& 1 == 1

/-- Repack a bit string into bytes, 8 bits per byte MSB-first; a final
partial group occupies the most significant bits of the last byte (this is
what the `remainder >> 24` flush of `to_entropy` produces). -/
def bytesOfBits : List Bool → List Nat
  | [] => []
  | b :: bs =>
    (ofBits ((b :: bs).take 8) <<< (8 - (b :: bs).length)) ::
      bytesOfBits ((b :: bs).drop 8)
termination_by bs => bs.length
decreasing_by simp [List.length_drop]; omega

/-- The first `k` bytes of a bit string, each from a full 8-bit group. -/
def bytesOfBitsN : Nat → List Bool → List Nat
  | 0, _ => []
  | k + 1, bs => ofBits (bs.take 8) :: bytesOfBitsN k (bs.drop 8)

/- ### SHA-256 (the `bitcoin_hashes::sha256` primitive, per FIPS 180-4) -/

/-- 32-bit right rotation. -/
def rotr32 (n k : Nat) : Nat := w32 ((n >>> k) ||| (n <<< (32 - k)))

/-- The SHA-256 round constants. -/
def shaK : List Nat :=
  [1116352408, 1899447441, 3049323471, 3921009573, 961987163, 1508970993,
   2453635748, 2870763221, 3624381080, 310598401, 607225278, 1426881987,
   1925078388, 2162078206, 2614888103, 3248222580, 3835390401, 4022224774,
   264347078, 604807628, 770255983, 1249150122, 1555081692, 1996064986,
   2554220882, 2821834349, 2952996808, 3210313671, 3336571891, 3584528711,
   113926993, 338241895, 666307205, 773529912, 1294757372, 1396182291,
   1695183700, 1986661051, 2177026350, 2456956037, 2730485921, 2820302411,
   3259730800, 3345764771, 3516065817, 3600352804, 4094571909, 275423344,
   430227734, 506948616, 659060556, 883997877, 958139571, 1322822218,
   1537002063, 1747873779, 1955562222, 2024104815, 2227730452, 2361852424,
   2428436474, 2756734187, 3204031479, 3329325298]

/-- The SHA-256 initial hash state. -/
def shaH0 : List Nat :=
  [1779033703, 3144134277, 1013904242, 2773480762,
   1359893119, 2600822924, 528734635, 1541459225]

/-- A 64-bit big-endian byte encoding, for the SHA-256 length field. -/
def be64 (n : Nat) : List Nat :=
  [(n >>> 56) &&& 255, (n >>> 48) &&& 255, (n >>> 40) &&& 255,
   (n >>> 32) &&& 255, (n >>> 24) &&& 255, (n >>> 16) &&& 255,
   (n >>> 8) &&& 255, n &&& 255]

/-- SHA-256 message padding: a `0x80` byte, zeros to 56 mod 64, then the
bit length as a 64-bit big-endian integer. -/
def sha256pad (m : List Nat) : List Nat :=
  m ++ 0x80 :: List.replicate ((119 - m.length % 64) % 64) 0 ++ be64 (8 * m.length)

/-- Pack bytes into 32-bit big-endian words. -/
def beWords : List Nat → List Nat
  | a :: b :: c :: d :: rest =>
    (((a % 256) <<< 24) + ((b % 256) <<< 16) + ((c % 256) <<< 8) + d % 256) ::
      beWords rest
  | _ => []

/-- Extend the 16 words of a block to the 64-entry SHA-256 message
schedule. -/
def shaExtend (ws : List Nat) : List Nat :=
  (List.range 48).foldl
    (fun w _ =>
      let t := w.length
      let x15 := w.getD (t - 15) 0
      let x2 := w.getD (t - 2) 0
      let s0 := (rotr32 x15 7) ^^^ (rotr32 x15 18) ^^^ (x15 >>> 3)
      let s1 := (rotr32 x2 17) ^^^ (rotr32 x2 19) ^^^ (x2 >>> 10)
      w ++ [w32 (w.getD (t - 16) 0 + s0 + w.getD (t - 7) 0 + s1)])
    ws

/-- One SHA-256 compression round. -/
def shaRound (w : List Nat) (s : List Nat) (t : Nat) : List Nat :=
  match s with
  | [a, b, c, d, e, f, g, h] =>
    let s1 := (rotr32 e 6) ^^^ (rotr32 e 11) ^^^ (rotr32 e 25)
    let ch := (e &&& f) ^^^ ((e ^^^ 0xFFFFFFFF) &&& g)
    let t1 := w32 (h + s1 + ch + shaK.getD t 0 + w.getD t 0)
    let s0 := (rotr32 a 2) ^^^ (rotr32 a 13) ^^^ (rotr32 a 22)
    let maj := (a &&& b) ^^^ (a &&& c) ^^^ (b &&& c)
    let t2 := w32 (s0 + maj)
    [w32 (t1 + t2), a, b, c, w32 (d + t1), e, f, g]
  | _ => s

/-- SHA-256 compression of one 64-byte block into the running state. -/
def shaCompress (h : List Nat) (block : List Nat) : List Nat :=
  let w := shaExtend (beWords block)
  let st := (List.range 64).foldl (shaRound w) h
  h.zipWith (fun x y => w32 (x + y)) st

/-- Fold SHA-256 compression over the 64-byte blocks of a padded message.
The first argument is fuel, always instantiated with the message length:
each step consumes 64 bytes, so the fuel never runs out first. -/
def sha256go : Nat → List Nat → List Nat → List Nat
  | _, h, [] => h
  | 0, h, _ => h
  | fuel + 1, h, m :: ms =>
    sha256go fuel (shaCompress h ((m :: ms).take 64)) ((m :: ms).drop 64)

/-- The 4 bytes of a 32-bit word, big-endian. -/
def wordBytes (x : Nat) : List Nat :=
  [(x >>> 24) &&& 255, (x >>> 16) &&& 255, (x >>> 8) &&& 255, x &&& 255]

/-- SHA-256 of a byte string, as its 32 digest bytes. -/
def sha256 (m : List Nat) : List Nat :=
  (sha256go (sha256pad m).length shaH0 (sha256pad m)).flatMap wordBytes

/- ### Data model: errors, word tables, languages

The word-list data files and the `Language` accessors (`all`, `find_word`,
`word_list`, `unique_words`) are not among the provided sources.  Modelled
from the spec: a `Language` is an element of an enumerated set (a tag),
each owning one Word Table, "a bidirectional mapping between a word and its
11-bit index (0–2047)"; `Language::all()` is the list of compiled-in
languages and `unique_words` marks tables lexically disjoint from all
others. -/

/-- A language tag (one constructor of the `Language` enum). -/
abbrev Lang := Nat

/-- Modelled from the spec: the Word Table of one language —
`word_list()[idx]` is `wordList idx` and `find_word w` is `findWord w`. -/
structure WordTable where
  wordList : Nat → Str
  findWord : Str → Option Nat

/-- Modelled from the spec: the compiled-in language set — `Language::all()`
is `langs`, each tag resolving to its Word Table, with its `unique_words`
flag. -/
structure Config where
  langs : List Lang
  table : Lang → WordTable
  uniq : Lang → Bool

deriving instance DecidableEq for Except

/-- The `bip39::Error` enum. -/
inductive Error where
  | BadWordCount : Nat → Error
  | UnknownWord : Str → Error
  | BadEntropyBitCount : Nat → Error
  | InvalidChecksum : Error
  | AmbiguousWordList : List Lang → Error
deriving DecidableEq, Repr

/- ### `Mnemonic::from_entropy_in` -/

/-- The entropy bits of `from_entropy_in`: `bits[i * 8 + j]` is
`(entropy[i] & (1 << (7 - j))) > 0`, flattened in order. -/
def entropyBits (entropy : List Nat) : List Bool :=
  entropy.flatMap byteBits

/-- The checksum bits of `from_entropy_in`:
`bits[8 * entropy.len() + i] = (check[i / 8] & (1 << (7 - (i % 8)))) > 0`
for `i < entropy.len() / 4`, where `check = sha256(entropy)`. -/
def checkBits (entropy : List Nat) : List Bool :=
  (List.range (entropy.length / 4)).map fun i =>
    (sha256 entropy).getD (i / 8) 0 &&& (1 <<< (7 - i % 8)) != 0

/-- The index of word `i` in `from_entropy_in`:
`idx += 1 << (10 - j)` for each set bit `bits[i * 11 + j]`, `j < 11`. -/
def wordIdxAt (bits : List Bool) (i : Nat) : Nat :=
  (List.range 11).foldl
    (fun idx j => if bits.getD (i * 11 + j) false then idx + (1 <<< (10 - j)) else idx) 0

/-- `Mnemonic::from_entropy_in`: length-gate the entropy, append the
checksum bits, cut into 11-bit indices, and join the indexed words with
single spaces. -/
def from_entropy_in (cfg : Config) (language : Lang) (entropy : List Nat) :
    Except Error Str :=
  if entropy.length % 4 != 0 then .error (.BadEntropyBitCount (entropy.length * 8))
  else if entropy.length * 8 < 128 || entropy.length * 8 > 256 then
    .error (.BadEntropyBitCount (entropy.length * 8))
  else
    let bits := entropyBits entropy ++ checkBits entropy
    let mlen := entropy.length * 3 / 4
    let words := (List.range mlen).map fun i =>
      (cfg.table language).wordList (wordIdxAt bits i)
    .ok (joinWords words)

/- ### `Mnemonic::validate_in` -/

/-- The word-lookup loop of `validate_in`: each word's table index, stopping
with `UnknownWord` at the first word the table does not contain. -/
def lookupAll (t : WordTable) : List Str → Except Error (List Nat)
  | [] => .ok []
  | w :: ws =>
    match t.findWord w with
    | none => .error (.UnknownWord w)
    | some idx =>
      match lookupAll t ws with
      | .error e => .error e
      | .ok idxs => .ok (idx :: idxs)

/-- The entropy byte `i` reassembled by `validate_in`:
`entropy[i] += 1 << (7 - j)` for each set bit `bits[i * 8 + j]`, `j < 8`. -/
def byteAt (bits : List Bool) (i : Nat) : Nat :=
  (List.range 8).foldl
    (fun b j => if bits.getD (i * 8 + j) false then b + (1 <<< (7 - j)) else b) 0

/-- The reassembled candidate entropy of `validate_in`:
`bits.len() / 33 * 4` bytes, 8 bits each. -/
def reassembled (bits : List Bool) : List Nat :=
  (List.range (bits.length / 33 * 4)).map (byteAt bits)

/-- The checksum comparison loop of `validate_in`: bit `8 * entropy.len() + i`
of the phrase must equal bit `i` of `sha256(entropy)` for every
`i < entropy.len() / 4`.  The loop returns `InvalidChecksum` at the first
mismatch; since that is its only effect, it is the conjunction of the
comparisons. -/
def checksumOk (bits : List Bool) (entropy : List Nat) : Bool :=
  (List.range (entropy.length / 4)).all fun i =>
    bits.getD (8 * entropy.length + i) false ==
      ((sha256 entropy).getD (i / 8) 0 &&& (1 <<< (7 - i % 8)) != 0)

/-- `Mnemonic::validate_in`: word-count gate, word lookups, then checksum
verification against a fresh SHA-256 of the reassembled entropy. -/
def validate_in (cfg : Config) (language : Lang) (s : Str) : Except Error Unit :=
  let words := splitWhitespace s
  if words.length < 6 || words.length % 6 != 0 || words.length > 24 then
    .error (.BadWordCount words.length)
  else
    match lookupAll (cfg.table language) words with
    | .error e => .error e
    | .ok idxs =>
      let bits := idxs.flatMap idxBits
      let entropy := reassembled bits
      if checksumOk bits entropy then .ok () else .error .InvalidChecksum

/- ### `Mnemonic::language_of` -/

/-- The elimination loop of `language_of`: word by word, retain the
languages whose table contains the word; return the single survivor, fail
with `UnknownWord` when none survive, and with `AmbiguousWordList` when the
words run out with several survivors. -/
def eliminate (cfg : Config) : List Lang → List Str → Except Error Lang
  | langs, [] => .error (.AmbiguousWordList langs)
  | langs, w :: ws =>
    let langs' := langs.filter fun l => ((cfg.table l).findWord w).isSome
    match langs' with
    | [l] => .ok l
    | [] => .error (.UnknownWord w)
    | _ => eliminate cfg langs' ws

/-- `Mnemonic::language_of`.  `none` models the panic of
`s.split_whitespace().next().unwrap()` on input with no words; the
`first_word.len() == 0` guard of the source is kept although
`split_whitespace` never yields an empty word. -/
def language_of (cfg : Config) (s : Str) : Option (Except Error Lang) :=
  match splitWhitespace s with
  | [] => none
  | first_word :: _ =>
    some <|
      if first_word.length == 0 then .error (.BadWordCount 0)
      else
        match (cfg.langs.filter cfg.uniq).find? (fun l => ((cfg.table l).findWord first_word).isSome) with
        | some l => .ok l
        | none => eliminate cfg (cfg.langs.filter fun l => !cfg.uniq l) (splitWhitespace s)

/- ### `Mnemonic::parse`, `Mnemonic::parse_in`

`Mnemonic::normalize_utf8_cow` replaces the text by its NFKD normalization
(skipping the rewrite when `is_nfkd_quick` certifies the text already
normalized, which by the contract of `unicode_normalization` does not change
the result).  NFKD itself lives in the external `unicode_normalization`
crate; the functions below therefore take the normalization as an explicit
function argument `nf`. -/

/-- `Mnemonic::parse`: normalize, detect the language, validate, and wrap
the normalized text.  `none` models the panic inherited from
`language_of`. -/
def parse (cfg : Config) (nf : Str → Str) (s : Str) : Option (Except Error Str) :=
  match language_of cfg (nf s) with
  | none => none
  | some (.error e) => some (.error e)
  | some (.ok language) =>
    some <|
      match validate_in cfg language (nf s) with
      | .error e => .error e
      | .ok () => .ok (nf s)

/-- `Mnemonic::parse_in`: normalize, validate in the given language, and
wrap the normalized text. -/
def parse_in (cfg : Config) (nf : Str → Str) (language : Lang) (s : Str) :
    Except Error Str :=
  match validate_in cfg language (nf s) with
  | .error e => .error e
  | .ok () => .ok (nf s)

/- ### `Mnemonic::to_entropy` -/

/-- The inner `while offset >= 8` flush of `to_entropy`: emit
`remainder >> 24`, shift `remainder` left one byte (as u32), and drop 8 from
`offset`. -/
def pushBytes (remainder offset : Nat) (acc : List Nat) : Nat × Nat × List Nat :=
  if 8 ≤ offset then
    pushBytes (w32 (remainder <<< 8)) (offset - 8) (acc ++ [remainder >>> 24])
  else (remainder, offset, acc)

/-- The word loop of `to_entropy`: for each index,
`remainder |= ((idx as u32) << (32 - 11)) >> offset`, then flush whole
bytes; a final partial byte is flushed after the loop. -/
def accumGo : List Nat → Nat → Nat → List Nat → List Nat
  | [], remainder, offset, acc =>
    if offset != 0 then acc ++ [remainder >>> 24] else acc
  | idx :: idxs, remainder, offset, acc =>
    let r1 := remainder ||| (w32 (w32 idx <<< 21) >>> offset)
    let s := pushBytes r1 (offset + 11) acc
    accumGo idxs s.1 s.2.1 s.2.2

/-- `Mnemonic::to_entropy`.  `none` models the two panics: the `unwrap` of
`language_of` and the `unwrap` of each `find_word`. -/
def to_entropy (cfg : Config) (m : Str) : Option (List Nat) :=
  match language_of cfg m with
  | some (.ok language) =>
    let words := splitWhitespace m
    match lookupAll (cfg.table language) words with
    | .error _ => none
    | .ok idxs => some ((accumGo idxs 0 0 []).take (words.length / 3 * 4))
  | _ => none

/- ### `pbkdf2::pbkdf2` and `Mnemonic::to_seed`

HMAC-SHA512 is supplied by the external `bitcoin_hashes` crate; the
functions below take it as an explicit argument `hmac` (key, then message,
to the 64 MAC bytes). -/

/-- `pbkdf2::u32_to_array_be`: `res[i] = ((val >> (4 - i - 1) * 8) & 0xff)`. -/
def u32_to_array_be (val : Nat) : List Nat :=
  (List.range 4).map fun i => (w32 val >>> ((4 - i - 1) * 8)) &&& 0xff

/-- `pbkdf2::xor`: xor `salt` into `res` in place — only the first
`salt.len()` bytes change, and `res` keeps its length. -/
def xorInto (res salt : List Nat) : List Nat :=
  (res.zipWith (fun a b => a ^^^ b) salt) ++ res.drop salt.length

/-- The `for _ in 1..c` loop of one `pbkdf2` block: `k` remaining
iterations, each re-keying HMAC on the previous `salt` value and xoring the
MAC into the chunk. -/
def pbkdf2Iter (hmac : List Nat → List Nat → List Nat) (pass : List Nat) :
    Nat → List Nat → List Nat → List Nat
  | 0, chunk, _ => chunk
  | k + 1, chunk, salt =>
    let salt' := hmac pass salt
    pbkdf2Iter hmac pass k (xorInto chunk salt') salt'

/-- One `chunks_mut` block of `pbkdf2`: a zeroed chunk of `blen` bytes,
`U1 = HMAC(pass, salt ‖ BE32(i + 1))` xored in, then `c - 1` re-keyed
iterations. -/
def pbkdf2Block (hmac : List Nat → List Nat → List Nat)
    (pass salt : List Nat) (c i blen : Nat) : List Nat :=
  let u1 := hmac pass (salt ++ u32_to_array_be (i + 1))
  pbkdf2Iter hmac pass (c - 1) (xorInto (List.replicate blen 0) u1) u1

/-- `pbkdf2::pbkdf2` with an output buffer of `dkLen` bytes:
`res.chunks_mut(64)` gives `⌈dkLen / 64⌉` chunks, the last one
`dkLen mod 64` bytes long when `dkLen` is not a multiple of 64. -/
def pbkdf2 (hmac : List Nat → List Nat → List Nat)
    (pass salt : List Nat) (c dkLen : Nat) : List Nat :=
  ((List.range ((dkLen + 63) / 64)).map fun i =>
    pbkdf2Block hmac pass salt c i (min 64 (dkLen - 64 * i))).flatten

/-- UTF-8 encoding of one Unicode scalar value (`str::as_bytes`, per
character). -/
def utf8Char (c : Nat) : List Nat :=
  if c < 0x80 then [c]
  else if c < 0x800 then [0xC0 ||| (c >>> 6), 0x80 ||| (c &&& 0x3F)]
  else if c < 0x10000 then
    [0xE0 ||| (c >>> 12), 0x80 ||| ((c >>> 6) &&& 0x3F), 0x80 ||| (c &&& 0x3F)]
  else
    [0xF0 ||| (c >>> 18), 0x80 ||| ((c >>> 12) &&& 0x3F),
     0x80 ||| ((c >>> 6) &&& 0x3F), 0x80 ||| (c &&& 0x3F)]

/-- `str::as_bytes`: the UTF-8 encoding of a string. -/
def utf8 (s : Str) : List Nat := s.flatMap utf8Char

/-- The code points of the literal `"mnemonic"`. -/
def mnemonicLit : Str := [109, 110, 101, 109, 111, 110, 105, 99]

/-- `Mnemonic::to_seed`: PBKDF2-HMAC-SHA512 of the re-normalized mnemonic
text with salt `normalize("mnemonic" + passphrase)`, 2048 rounds, 64
bytes. -/
def to_seed (hmac : List Nat → List Nat → List Nat) (nf : Str → Str)
    (m passphrase : Str) : List Nat :=
  pbkdf2 hmac (utf8 (nf m)) (utf8 (nf (mnemonicLit ++ passphrase))) 2048 64

/- ### A concrete word table for witnesses and counterexamples

A synthetic but fully valid Word Table: word `n` is the three lowercase
letters of `n` in base 26.  The 2048 words are distinct, non-empty,
whitespace-free, and in bijection with the indices `0..2047`, as the spec's
Word Table invariant demands. -/

/-- Word `n` of the demo table: three lowercase letters, base 26. -/
def demoWord (n : Nat) : Str := [97 + n / 676, 97 + n / 26 % 26, 97 + n % 26]

/-- Reverse lookup of the demo table. -/
def demoFind (w : Str) : Option Nat :=
  match w with
  | [a, b, c] =>
    if 97 ≤ a && a < 123 && 97 ≤ b && b < 123 && 97 ≤ c && c < 123 then
      let n := (a - 97) * 676 + (b - 97) * 26 + (c - 97)
      if n < 2048 then some n else none
    else none
  | _ => none

/-- The demo Word Table. -/
def demoTable : WordTable := ⟨demoWord, demoFind⟩

/-- A single-language configuration over the demo table, the language
marked unique-words (the fast path of `language_of` applies). -/
def demoCfg : Config := ⟨[0], fun _ => demoTable, fun _ => true⟩

/-- A two-language configuration in which both languages share the demo
table and neither is unique-words: every phrase of table words is ambiguous
between the two. -/
def demoCfg2 : Config := ⟨[0, 1], fun _ => demoTable, fun _ => false⟩

/-- The big-endian bits of `n`, `len` of them, via division (the common
value of the several per-bit formulas of the source). -/
def bitsBE (len n : Nat) : List Bool :=
  (List.range len).map fun j => n / 2 ^ (len - 1 - j) % 2 == 1

/-- The candidate languages of `language_of` surviving a word list: those
whose table contains every word. -/
def surv (cfg : Config) (base : List Lang) (ws : List Str) : List Lang :=
  base.filter fun l => ws.all fun w => ((cfg.table l).findWord w).isSome

/-- RFC 8018's `INT (i)`: the "four-octet encoding of the integer i, most
significant octet first" (of its 32 low bits). -/
def rfcINT (i : Nat) : List Nat :=
  [(w32 i >>> 24) &&& 255, (w32 i >>> 16) &&& 255, (w32 i >>> 8) &&& 255, w32 i &&& 255]

/-- RFC 8018's `U_(j+1)` for block index `i`:
`U_1 = PRF(P, S ‖ INT(i))` and `U_(j+1) = PRF(P, U_j)`. -/
def rfcU (hmac : List Nat → List Nat → List Nat) (pass salt : List Nat)
    (i : Nat) : Nat → List Nat
  | 0 => hmac pass (salt ++ rfcINT i)
  | j + 1 => hmac pass (rfcU hmac pass salt i j)

/-- RFC 8018's `F (P, S, c, i) = U_1 \xor U_2 \xor ... \xor U_c`. -/
def rfcF (hmac : List Nat → List Nat → List Nat) (pass salt : List Nat)
    (i c : Nat) : List Nat :=
  (List.range c).foldl
    (fun acc j => acc.zipWith (fun a b => a ^^^ b) (rfcU hmac pass salt i j))
    (List.replicate 64 0)

/-- Full-width (64-byte) variant of the per-block iteration, for relating
the truncated last chunk to the RFC block. -/
def rfcIter (hmac : List Nat → List Nat → List Nat) (pass : List Nat) :
    Nat → List Nat → List Nat → List Nat
  | 0, c, _ => c
  | k + 1, c, u =>
    let u' := hmac pass u
    rfcIter hmac pass k (c.zipWith (fun a b => a ^^^ b) u') u'

/- ### Concrete phrases for witnesses and counterexamples -/

/-- The valid 12-word demo mnemonic of the all-zero 16-byte entropy
(`sha256` of which has leading nibble `3`). -/
def demoM1 : Str := joinWords (List.replicate 11 (demoWord 0) ++ [demoWord 3])

/-- A valid 12-word demo mnemonic differing from `demoM1` in exactly the
first word: the entropy `[0, 224, 0, ..., 0]` also has SHA-256 leading
nibble `3`, so the unchanged checksum still verifies. -/
def demoM2 : Str := joinWords (demoWord 7 :: (List.replicate 10 (demoWord 0) ++ [demoWord 3]))

/-- A word outside the demo table (`"xxx"`). -/
def demoX : Str := [120, 120, 120]

/-- Six copies of an unknown word: passes the word-count gate. -/
def demoS6 : Str := joinWords (List.replicate 6 demoX)

/-- Five copies of an unknown word: fails language detection before any
word count is reported. -/
def demoS5 : Str := joinWords (List.replicate 5 demoX)

/-- The candidate set that starts `language_of`'s elimination loop: the
compiled-in languages without the unique-words guarantee. -/
def elimBase (cfg : Config) : List Lang :=
  cfg.langs.filter fun l => !cfg.uniq l

/-- A two-word phrase over the demo table, ambiguous in `demoCfg2`. -/
def demoPhrase2 : Str := joinWords [demoWord 0, demoWord 1]

/-- The word list of `demoM1` (indices eleven 0s and a 3). -/
def demoWords1 : List Str := List.replicate 11 (demoWord 0) ++ [demoWord 3]

/- ## Lemmas

### Bit-string valuation -/

theorem ofBits_foldl (bs : List Bool) (a : Nat) :
    bs.foldl (fun x b => 2 * x + (if b then 1 else 0)) a
      = a * 2 ^ bs.length + ofBits bs := by
  induction bs generalizing a with
  | nil => simp [ofBits]
  | cons b bs ih =>
    simp only [List.foldl_cons, ofBits, List.length_cons]
    rw [ih, ih (2 * 0 + if b then 1 else 0)]
    ring

theorem ofBits_cons (b : Bool) (bs : List Bool) :
    ofBits (b :: bs) = (if b then 1 else 0) * 2 ^ bs.length + ofBits bs := by
  simp only [ofBits, List.foldl_cons]
  rw [ofBits_foldl]
  simp [ofBits]

theorem ofBits_append (a b : List Bool) :
    ofBits (a ++ b) = ofBits a * 2 ^ b.length + ofBits b := by
  simp only [ofBits, List.foldl_append]
  rw [ofBits_foldl]
  rfl

theorem ofBits_lt (bs : List Bool) : ofBits bs < 2 ^ bs.length := by
  induction bs with
  | nil => simp [ofBits]
  | cons b bs ih =>
    rw [ofBits_cons]
    have h2 : 2 ^ (b :: bs).length = 2 ^ bs.length + 2 ^ bs.length := by
      simp [List.length_cons, pow_succ]; ring
    rw [h2]
    cases b <;> simp <;> omega

@[simp] theorem length_bitsBE (len n : Nat) : (bitsBE len n).length = len := by
  simp [bitsBE]

theorem bitsBE_succ (len n : Nat) :
    bitsBE (len + 1) n = (n / 2 ^ len % 2 == 1) :: bitsBE len n := by
  simp only [bitsBE, List.range_succ_eq_map, List.map_cons, List.map_map]
  refine congrArg₂ _ (by norm_num) ?_
  apply List.map_congr_left
  intro j _
  simp only [Function.comp_apply]
  have h : len + 1 - 1 - (j + 1) = len - 1 - j := by omega
  rw [Nat.succ_eq_add_one, h]

theorem ofBits_bitsBE (len n : Nat) : ofBits (bitsBE len n) = n % 2 ^ len := by
  induction len with
  | zero => simp [bitsBE, ofBits, Nat.mod_one]
  | succ len ih =>
    rw [bitsBE_succ, ofBits_cons, length_bitsBE, ih, pow_succ, Nat.mod_mul]
    rcases Nat.mod_two_eq_zero_or_one (n / 2 ^ len) with h | h <;>
      · rw [h]; simp; try ring

theorem bitsBE_mod (len n : Nat) : bitsBE len n = bitsBE len (n % 2 ^ len) := by
  simp only [bitsBE]
  apply List.map_congr_left
  intro j hj
  rw [List.mem_range] at hj
  set k := len - 1 - j with hk
  have hsplit : n = n % 2 ^ len + 2 ^ (len - k) * (n / 2 ^ len) * 2 ^ k := by
    have h1 : 2 ^ (len - k) * (n / 2 ^ len) * 2 ^ k = 2 ^ len * (n / 2 ^ len) := by
      rw [Nat.mul_comm (2 ^ (len - k) * (n / 2 ^ len)) (2 ^ k), ← Nat.mul_assoc,
        ← pow_add]
      congr 2
      omega
    rw [h1]
    have hmd := Nat.mod_add_div n (2 ^ len)
    omega
  have hdiv : n / 2 ^ k = n % 2 ^ len / 2 ^ k + 2 ^ (len - k) * (n / 2 ^ len) := by
    conv_lhs => rw [hsplit]
    rw [Nat.add_mul_div_right _ _ (Nat.two_pow_pos k)]
  have heven : 2 ^ (len - k) * (n / 2 ^ len) % 2 = 0 := by
    have h2 : len - k = (len - k - 1) + 1 := by omega
    rw [h2, pow_succ,
      show 2 ^ (len - k - 1) * 2 * (n / 2 ^ len)
          = 2 * (2 ^ (len - k - 1) * (n / 2 ^ len)) from by ring,
      Nat.mul_mod_right]
  rw [hdiv]
  congr 1
  omega

theorem bitsBE_ofBits (bs : List Bool) : bitsBE bs.length (ofBits bs) = bs := by
  induction bs with
  | nil => simp [bitsBE]
  | cons b bs ih =>
    rw [List.length_cons, bitsBE_succ, ofBits_cons]
    have hlt := ofBits_lt bs
    have hmul : (if b then 1 else 0) * 2 ^ bs.length + ofBits bs
        = 2 ^ bs.length * (if b then 1 else 0) + ofBits bs := by ring
    rw [hmul, Nat.mul_add_div (Nat.two_pow_pos _), Nat.div_eq_of_lt hlt,
      Nat.add_zero, bitsBE_mod, Nat.mul_add_mod, Nat.mod_eq_of_lt hlt, ih]
    cases b <;> simp

theorem and_two_pow_bne (b k : Nat) :
    (b &&& 2 ^ k != 0) = (b / 2 ^ k % 2 == 1) := by
  rw [Nat.and_two_pow]
  cases h : b.testBit k with
  | false =>
    rw [Nat.testBit_to_div_mod] at h
    simp only [decide_eq_false_iff_not] at h
    simp [h]
  | true =>
    rw [Nat.testBit_to_div_mod] at h
    simp only [decide_eq_true_eq] at h
    simp [h, (Nat.two_pow_pos k).ne']

theorem byteBits_eq (b : Nat) : byteBits b = bitsBE 8 b := by
  simp only [byteBits, bitsBE]
  apply List.map_congr_left
  intro j _
  rw [Nat.one_shiftLeft]
  have h8 : 8 - 1 - j = 7 - j := by omega
  rw [h8, and_two_pow_bne]

theorem idxBits_eq (i : Nat) : idxBits i = bitsBE 11 i := by
  simp only [idxBits, bitsBE]
  apply List.map_congr_left
  intro j _
  have h11 : 11 - 1 - j = 10 - j := by omega
  rw [h11, Nat.shiftRight_eq_div_pow, Nat.and_one_is_mod]

theorem ofBits_idxBits (i : Nat) (h : i < 2048) : ofBits (idxBits i) = i := by
  rw [idxBits_eq, ofBits_bitsBE, Nat.mod_eq_of_lt]
  exact h

theorem idxBits_ofBits (bs : List Bool) (h : bs.length = 11) :
    idxBits (ofBits bs) = bs := by
  rw [idxBits_eq, ← h, bitsBE_ofBits]

/- ### Whitespace splitting -/

theorem splitWsGo_nonWs (w rest cur : Str) (hw : ∀ c ∈ w, isWs c = false) :
    splitWsGo (w ++ rest) cur = splitWsGo rest (w.reverse ++ cur) := by
  induction w generalizing cur with
  | nil => simp
  | cons c w ih =>
    simp only [List.cons_append, splitWsGo, hw c (by simp)]
    rw [if_neg (by simp), List.append_eq, ih _ fun d hd => hw d (by simp [hd])]
    simp

theorem mem_splitWsGo (s : Str) (cur w : Str) (hcur : ∀ c ∈ cur, isWs c = false)
    (hmem : w ∈ splitWsGo s cur) : w ≠ [] ∧ ∀ c ∈ w, isWs c = false := by
  induction s generalizing cur with
  | nil =>
    simp only [splitWsGo] at hmem
    split at hmem
    · simp at hmem
    · rename_i hne
      rw [List.mem_singleton] at hmem
      subst hmem
      refine ⟨by simpa using fun h => hne (by simp [h]), fun c hc => hcur c (by simpa using hc)⟩
  | cons a s ih =>
    simp only [splitWsGo] at hmem
    split at hmem
    · split at hmem
      · exact ih [] (by simp) hmem
      · rename_i hne
        rcases List.mem_cons.mp hmem with h | h
        · subst h
          refine ⟨by simpa using fun h => hne (by simp [h]), fun c hc => hcur c (by simpa using hc)⟩
        · exact ih [] (by simp) h
    · rename_i ha
      have ha' : isWs a = false := by simpa using ha
      refine ih (a :: cur) ?_ hmem
      intro c hc
      rcases List.mem_cons.mp hc with rfl | hc
      · exact ha'
      · exact hcur c hc

theorem mem_splitWhitespace (s w : Str) (h : w ∈ splitWhitespace s) :
    w ≠ [] ∧ ∀ c ∈ w, isWs c = false :=
  mem_splitWsGo s [] w (by simp) h

theorem splitWs_join (ws : List Str)
    (h : ∀ w ∈ ws, w ≠ [] ∧ ∀ c ∈ w, isWs c = false) :
    splitWhitespace (joinWords ws) = ws := by
  induction ws with
  | nil => rfl
  | cons w ws ih =>
    obtain ⟨hne, hni⟩ := h w (by simp)
    cases ws with
    | nil =>
      show splitWsGo (joinWords [w]) [] = [w]
      have hjw : joinWords [w] = w ++ [] := by simp [joinWords]
      rw [hjw, splitWsGo_nonWs w [] [] hni]
      simp only [splitWsGo, List.append_nil]
      rw [if_neg (by simpa using fun hc => hne (by simpa using hc))]
      simp
    | cons w2 ws2 =>
      show splitWsGo (joinWords (w :: w2 :: ws2)) [] = w :: w2 :: ws2
      have hjw : joinWords (w :: w2 :: ws2) = w ++ 32 :: joinWords (w2 :: ws2) := rfl
      rw [hjw, splitWsGo_nonWs w _ [] hni]
      simp only [splitWsGo, List.append_nil]
      rw [if_pos (by decide), if_neg (by simpa using fun hc => hne (by simpa using hc))]
      simp only [List.reverse_reverse]
      exact congrArg _ (ih fun x hx => h x (by simp [hx]))

/- ### Byte repacking -/

theorem bytesOfBits_ne_nil (bs : List Bool) (h : bs ≠ []) :
    bytesOfBits bs
      = (ofBits (bs.take 8) <<< (8 - bs.length)) :: bytesOfBits (bs.drop 8) := by
  cases bs with
  | nil => exact absurd rfl h
  | cons b bs => rw [bytesOfBits]

theorem bytesOfBits_chunk (c rest : List Bool) (h : c.length = 8) :
    bytesOfBits (c ++ rest) = ofBits c :: bytesOfBits rest := by
  have hne : c ++ rest ≠ [] := by
    cases c <;> simp_all
  rw [bytesOfBits_ne_nil _ hne]
  have ht : (c ++ rest).take 8 = c := by
    rw [← h, List.take_left]
  have hd : (c ++ rest).drop 8 = rest := by
    rw [← h, List.drop_left]
  have hs : 8 - (c ++ rest).length = 0 := by
    simp [h]
  rw [ht, hd, hs, Nat.shiftLeft_zero]

@[simp] theorem length_bytesOfBitsN (k : Nat) (bs : List Bool) :
    (bytesOfBitsN k bs).length = k := by
  induction k generalizing bs with
  | zero => rfl
  | succ k ih => simp [bytesOfBitsN, ih]

theorem bytesOfBitsN_append (k : Nat) (a rest : List Bool) (h : 8 * k ≤ a.length) :
    bytesOfBitsN k (a ++ rest) = bytesOfBitsN k a := by
  induction k generalizing a with
  | zero => rfl
  | succ k ih =>
    simp only [bytesOfBitsN]
    rw [List.take_append_of_le_length (by omega), List.drop_append_of_le_length (by omega),
      ih _ (by simp; omega)]

theorem bytesOfBits_split (k : Nat) (bs : List Bool) (h : 8 * k ≤ bs.length) :
    bytesOfBits bs = bytesOfBitsN k bs ++ bytesOfBits (bs.drop (8 * k)) := by
  induction k generalizing bs with
  | zero => simp [bytesOfBitsN]
  | succ k ih =>
    have hcut : bs = bs.take 8 ++ bs.drop 8 := (List.take_append_drop 8 bs).symm
    have hlen : (bs.take 8).length = 8 := by
      rw [List.length_take]
      omega
    have hdd : (bs.drop 8).drop (8 * k) = bs.drop (8 * (k + 1)) := by
      rw [List.drop_drop]
      congr 1
      omega
    conv_lhs => rw [hcut]
    rw [bytesOfBits_chunk _ _ hlen, ih (bs.drop 8) (by simp; omega), hdd]
    simp [bytesOfBitsN]

theorem bytesOfBits_flatMap_byteBits (e : List Nat) (h : ∀ b ∈ e, b < 256) :
    bytesOfBits (e.flatMap byteBits) = e := by
  induction e with
  | nil => simp [bytesOfBits]
  | cons b e ih =>
    have hb : b < 2 ^ 8 := by
      have hb' := h b (by simp)
      norm_num
      omega
    rw [List.flatMap_cons,
      bytesOfBits_chunk _ _ (by rw [byteBits_eq]; simp),
      byteBits_eq, ofBits_bitsBE, Nat.mod_eq_of_lt hb,
      ih fun x hx => h x (by simp [hx])]

@[simp] theorem length_idxBits (i : Nat) : (idxBits i).length = 11 := by
  simp [idxBits]

theorem mul_pow_lor_eq_add (a b k : Nat) (hb : b < 2 ^ k) :
    (a * 2 ^ k) ||| b = a * 2 ^ k + b := by
  apply Nat.eq_of_testBit_eq
  intro j
  rw [Nat.testBit_or, Nat.mul_comm, Nat.testBit_mul_pow_two_add a hb j,
    Nat.testBit_mul_pow_two]
  by_cases h : j < k
  · simp [h, Nat.not_le.mpr h]
  · have hbj : b.testBit j = false :=
      Nat.testBit_lt_two_pow (lt_of_lt_of_le hb (Nat.pow_le_pow_right (by norm_num) (by omega)))
    simp [h, Nat.not_lt.mp h, hbj]

theorem w32_eq (n : Nat) : w32 n = n % 2 ^ 32 := by
  rw [w32]
  norm_num

/- ### The bit accumulator of `to_entropy`

`pend` is the list of bits still buffered in `remainder`: the invariant is
that they sit in the most significant positions, the rest being zero. -/

theorem pushBytes_spec (o : Nat) (pend : List Bool) (rem : Nat) (acc : List Nat)
    (hlen : pend.length = o) (ho : o ≤ 24)
    (hrem : rem = ofBits pend * 2 ^ (32 - o)) :
    pushBytes rem o acc
      = (ofBits (pend.drop (8 * (o / 8))) * 2 ^ (32 - o % 8), o % 8,
         acc ++ bytesOfBitsN (o / 8) pend) := by
  by_cases h8 : 8 ≤ o
  · rw [pushBytes, if_pos h8]
    have htd : pend = pend.take 8 ++ pend.drop 8 := (List.take_append_drop 8 pend).symm
    have htlen : (pend.take 8).length = 8 := by rw [List.length_take]; omega
    have hdlen : (pend.drop 8).length = o - 8 := by rw [List.length_drop]; omega
    have hdlt : ofBits (pend.drop 8) < 2 ^ (o - 8) := hdlen ▸ ofBits_lt _
    have hsplitv : ofBits pend
        = ofBits (pend.take 8) * 2 ^ (o - 8) + ofBits (pend.drop 8) := by
      conv_lhs => rw [htd]
      rw [ofBits_append, hdlen]
    have hrem2 : rem = 2 ^ 24 * ofBits (pend.take 8) + ofBits (pend.drop 8) * 2 ^ (32 - o) := by
      rw [hrem, hsplitv, Nat.add_mul, Nat.mul_assoc, ← pow_add]
      have he : o - 8 + (32 - o) = 24 := by omega
      rw [he]
      ring
    have htop : rem >>> 24 = ofBits (pend.take 8) := by
      rw [Nat.shiftRight_eq_div_pow, hrem2,
        Nat.mul_add_div (Nat.two_pow_pos 24), Nat.div_eq_of_lt, Nat.add_zero]
      calc ofBits (pend.drop 8) * 2 ^ (32 - o) < 2 ^ (o - 8) * 2 ^ (32 - o) :=
            (Nat.mul_lt_mul_right (Nat.two_pow_pos _)).mpr hdlt
        _ = 2 ^ 24 := by rw [← pow_add]; congr 1; omega
    have hX : ofBits (pend.drop 8) * 2 ^ (32 - (o - 8)) < 2 ^ 32 :=
      calc ofBits (pend.drop 8) * 2 ^ (32 - (o - 8))
          < 2 ^ (o - 8) * 2 ^ (32 - (o - 8)) :=
            (Nat.mul_lt_mul_right (Nat.two_pow_pos _)).mpr hdlt
        _ = 2 ^ 32 := by rw [← pow_add]; congr 1; omega
    have hshift : w32 (rem <<< 8) = ofBits (pend.drop 8) * 2 ^ (32 - (o - 8)) := by
      have hexp : rem * 2 ^ 8
          = 2 ^ 32 * ofBits (pend.take 8)
            + ofBits (pend.drop 8) * 2 ^ (32 - (o - 8)) := by
        have ha : 2 ^ 24 * ofBits (pend.take 8) * 2 ^ 8
            = 2 ^ 32 * ofBits (pend.take 8) := by
          rw [Nat.mul_right_comm, ← pow_add]
        have hc : 2 ^ (32 - o) * 2 ^ 8 = 2 ^ (32 - (o - 8)) := by
          rw [← pow_add]
          congr 1
          omega
        calc rem * 2 ^ 8
            = 2 ^ 24 * ofBits (pend.take 8) * 2 ^ 8
              + ofBits (pend.drop 8) * (2 ^ (32 - o) * 2 ^ 8) := by rw [hrem2]; ring
          _ = 2 ^ 32 * ofBits (pend.take 8)
              + ofBits (pend.drop 8) * 2 ^ (32 - (o - 8)) := by rw [ha, hc]
      rw [Nat.shiftLeft_eq, w32_eq, hexp, Nat.mul_add_mod, Nat.mod_eq_of_lt hX]
    rw [htop, hshift,
      pushBytes_spec (o - 8) (pend.drop 8) _ _ hdlen (by omega) rfl]
    have hk : (o - 8) / 8 + 1 = o / 8 := by omega
    have hm : (o - 8) % 8 = o % 8 := by omega
    have hdd : (pend.drop 8).drop (8 * ((o - 8) / 8)) = pend.drop (8 * (o / 8)) := by
      rw [List.drop_drop]
      congr 1
      omega
    rw [hdd, hm, ← hk]
    have hby : bytesOfBitsN ((o - 8) / 8 + 1) pend
        = ofBits (pend.take 8) :: bytesOfBitsN ((o - 8) / 8) (pend.drop 8) := rfl
    rw [hby]
    simp
  · rw [pushBytes, if_neg h8]
    have h1 : o / 8 = 0 := by omega
    have h2 : o % 8 = o := by omega
    rw [h1, h2]
    simp [bytesOfBitsN, hrem]

set_option maxHeartbeats 4000000 in
theorem accumGo_or_step (idx : Nat) (pend : List Bool) (rem o : Nat)
    (ho : o < 8) (hrem : rem = ofBits pend * 2 ^ (32 - o)) (hi : idx < 2048) :
    rem ||| (w32 (w32 idx <<< 21) >>> o)
      = ofBits (pend ++ idxBits idx) * 2 ^ (32 - (o + 11)) := by
  have hw1 : w32 idx = idx := Nat.mod_eq_of_lt (by omega)
  have hw2 : w32 (idx <<< 21) = idx * 2 ^ 21 := by
    rw [Nat.shiftLeft_eq, w32_eq, Nat.mod_eq_of_lt]
    calc idx * 2 ^ 21 < 2048 * 2 ^ 21 :=
          (Nat.mul_lt_mul_right (Nat.two_pow_pos 21)).mpr hi
      _ = 2 ^ 32 := by norm_num
  have h21 : (21 : Nat) = (21 - o) + o := by omega
  have hw3 : (idx * 2 ^ 21) >>> o = idx * 2 ^ (21 - o) := by
    rw [Nat.shiftRight_eq_div_pow]
    conv_lhs => rw [h21, pow_add, ← Nat.mul_assoc]
    rw [Nat.mul_div_cancel _ (Nat.two_pow_pos o)]
  have hb : idx * 2 ^ (21 - o) < 2 ^ (32 - o) :=
    calc idx * 2 ^ (21 - o) < 2 ^ 11 * 2 ^ (21 - o) :=
          (Nat.mul_lt_mul_right (Nat.two_pow_pos _)).mpr
            (show idx < 2 ^ 11 by simpa using hi)
      _ = 2 ^ (32 - o) := by
            rw [← pow_add]
            have he : 11 + (21 - o) = 32 - o := by omega
            rw [he]
  rw [hw1, hw2, hw3, hrem,
    mul_pow_lor_eq_add (ofBits pend) (idx * 2 ^ (21 - o)) (32 - o) hb,
    ofBits_append, length_idxBits, ofBits_idxBits idx hi,
    show 32 - (o + 11) = 21 - o from by omega,
    show 32 - o = 11 + (21 - o) from by omega, pow_add]
  ring

set_option maxHeartbeats 4000000 in
theorem accumGo_spec (idxs : List Nat) (pend : List Bool) (rem o : Nat)
    (acc : List Nat) (hlen : pend.length = o) (ho : o < 8)
    (hrem : rem = ofBits pend * 2 ^ (32 - o)) (hidx : ∀ i ∈ idxs, i < 2048) :
    accumGo idxs rem o acc = acc ++ bytesOfBits (pend ++ idxs.flatMap idxBits) := by
  induction idxs generalizing pend rem o acc with
  | nil =>
    rw [accumGo]
    by_cases h0 : o = 0
    · subst h0
      rw [if_neg (by simp)]
      rw [List.length_eq_zero] at hlen
      subst hlen
      simp [bytesOfBits]
    · rw [if_pos (by simpa using h0)]
      have hpne : pend ≠ [] := by
        intro h
        subst h
        simp at hlen
        omega
      rw [List.flatMap_nil, List.append_nil, bytesOfBits_ne_nil _ hpne,
        List.take_of_length_le (by omega), List.drop_eq_nil_of_le (by omega),
        hlen]
      have htop : rem >>> 24 = ofBits pend <<< (8 - o) := by
        rw [Nat.shiftRight_eq_div_pow, Nat.shiftLeft_eq, hrem,
          show 32 - o = (8 - o) + 24 from by omega, pow_add, ← Nat.mul_assoc,
          Nat.mul_div_cancel _ (Nat.two_pow_pos 24)]
      rw [htop]
      simp [bytesOfBits]
  | cons idx idxs ih =>
    have hi : idx < 2048 := hidx idx (by simp)
    have hr1 := accumGo_or_step idx pend rem o ho hrem hi
    have hplen : (pend ++ idxBits idx).length = o + 11 := by
      simp [hlen]
    rw [accumGo, hr1,
      pushBytes_spec (o + 11) (pend ++ idxBits idx) _ acc hplen (by omega) rfl]
    rw [ih ((pend ++ idxBits idx).drop (8 * ((o + 11) / 8)))
        (ofBits ((pend ++ idxBits idx).drop (8 * ((o + 11) / 8)))
          * 2 ^ (32 - (o + 11) % 8))
        ((o + 11) % 8)
        (acc ++ bytesOfBitsN ((o + 11) / 8) (pend ++ idxBits idx))
        (by rw [List.length_drop, hplen]; omega) (by omega) rfl
        (fun i hi2 => hidx i (by simp [hi2]))]
    rw [List.flatMap_cons, ← List.append_assoc]
    have hsp : bytesOfBits ((pend ++ idxBits idx) ++ idxs.flatMap idxBits)
        = bytesOfBitsN ((o + 11) / 8) (pend ++ idxBits idx)
          ++ bytesOfBits (((pend ++ idxBits idx).drop (8 * ((o + 11) / 8)))
              ++ idxs.flatMap idxBits) := by
      rw [bytesOfBits_split ((o + 11) / 8) _ (by rw [List.length_append, hplen]; omega),
        bytesOfBitsN_append _ _ _ (by rw [hplen]; omega),
        List.drop_append_of_le_length (by rw [hplen]; omega)]
    rw [hsp]
    simp

/- ### Word indices as bit slices -/

theorem foldl_ofBits_pow (n : Nat) (g : Nat → Bool) (k a : Nat) :
    (List.range n).foldl (fun x j => if g j then x + 2 ^ (k + (n - 1 - j)) else x) a
      = a + ofBits ((List.range n).map g) * 2 ^ k := by
  induction n generalizing k a with
  | zero => simp [ofBits]
  | succ n ih =>
    rw [List.range_succ, List.foldl_append, List.map_append,
      List.foldl_ext _ (fun x j => if g j then x + 2 ^ ((k + 1) + (n - 1 - j)) else x) a
        (fun x j hj => by
          rw [List.mem_range] at hj
          have he : k + (n + 1 - 1 - j) = k + 1 + (n - 1 - j) := by omega
          rw [he]),
      ih (k + 1) a]
    simp only [List.foldl_cons, List.foldl_nil, List.map_cons, List.map_nil]
    rw [ofBits_append]
    have h1 : ofBits [g n] = if g n then 1 else 0 := by
      cases g n <;> simp [ofBits]
    rw [h1]
    cases g n <;> simp [pow_succ] <;> ring

theorem getD_drop (l : List Bool) (n m : Nat) :
    (l.drop n).getD m false = l.getD (n + m) false := by
  simp [List.getElem?_drop]

theorem map_getD_slice (l : List Bool) (n k : Nat) (h : n + k ≤ l.length) :
    (List.range k).map (fun j => l.getD (n + j) false) = (l.drop n).take k := by
  apply List.ext_getElem
  · rw [List.length_map, List.length_range, List.length_take, List.length_drop]
    omega
  · intro i h1 h2
    rw [List.length_map, List.length_range] at h1
    simp only [List.getElem_map, List.getElem_range, List.getElem_take,
      List.getElem_drop, List.getD_eq_getElem?_getD]
    rw [List.getElem?_eq_getElem (by omega), Option.getD_some]

theorem wordIdxAt_eq (bits : List Bool) (i : Nat) (h : i * 11 + 11 ≤ bits.length) :
    wordIdxAt bits i = ofBits ((bits.drop (i * 11)).take 11) := by
  rw [wordIdxAt,
    List.foldl_ext _
      (fun x j => if bits.getD (i * 11 + j) false then x + 2 ^ (0 + (11 - 1 - j)) else x) 0
      (fun x j hj => by
        rw [List.mem_range] at hj
        rw [Nat.one_shiftLeft]
        have he : (10 : Nat) - j = 0 + (11 - 1 - j) := by omega
        rw [he]),
    foldl_ofBits_pow 11 (fun j => bits.getD (i * 11 + j) false) 0 0,
    map_getD_slice _ _ _ (by omega)]
  simp

theorem byteAt_eq (bits : List Bool) (i : Nat) (h : i * 8 + 8 ≤ bits.length) :
    byteAt bits i = ofBits ((bits.drop (i * 8)).take 8) := by
  rw [byteAt,
    List.foldl_ext _
      (fun x j => if bits.getD (i * 8 + j) false then x + 2 ^ (0 + (8 - 1 - j)) else x) 0
      (fun x j hj => by
        rw [List.mem_range] at hj
        rw [Nat.one_shiftLeft]
        have he : (7 : Nat) - j = 0 + (8 - 1 - j) := by omega
        rw [he]),
    foldl_ofBits_pow 8 (fun j => bits.getD (i * 8 + j) false) 0 0,
    map_getD_slice _ _ _ (by omega)]
  simp

theorem wordIdxAt_succ (bits : List Bool) (j : Nat) :
    wordIdxAt bits (j + 1) = wordIdxAt (bits.drop 11) j := by
  rw [wordIdxAt, wordIdxAt]
  apply List.foldl_ext
  intro x i hi
  rw [getD_drop]
  have h : (j + 1) * 11 + i = 11 + (j * 11 + i) := by ring
  rw [h]

theorem wordIdxAt_lt (bits : List Bool) (i : Nat) (h : i * 11 + 11 ≤ bits.length) :
    wordIdxAt bits i < 2048 := by
  rw [wordIdxAt_eq bits i h]
  calc ofBits ((bits.drop (i * 11)).take 11)
      < 2 ^ ((bits.drop (i * 11)).take 11).length := ofBits_lt _
    _ ≤ 2 ^ 11 := Nat.pow_le_pow_right (by norm_num) (by simp)
    _ = 2048 := by norm_num

theorem flatMap_idxBits_wordIdxAt (m : Nat) (bits : List Bool)
    (h : bits.length = 11 * m) :
    ((List.range m).map (wordIdxAt bits)).flatMap idxBits = bits := by
  induction m generalizing bits with
  | zero =>
    simp at h
    simp [h]
  | succ m ih =>
    rw [List.range_succ_eq_map, List.map_cons, List.map_map, List.flatMap_cons]
    have htake : wordIdxAt bits 0 = ofBits (bits.take 11) := by
      rw [wordIdxAt_eq bits 0 (by omega)]
      simp
    have hhead : idxBits (wordIdxAt bits 0) = bits.take 11 := by
      rw [htake, idxBits_ofBits _ (by rw [List.length_take]; omega)]
    have htail : (List.range m).map (wordIdxAt bits ∘ Nat.succ)
        = (List.range m).map (wordIdxAt (bits.drop 11)) := by
      apply List.map_congr_left
      intro j _
      simp only [Function.comp_apply, Nat.succ_eq_add_one]
      exact wordIdxAt_succ bits j
    rw [hhead, htail, ih (bits.drop 11) (by rw [List.length_drop]; omega),
      List.take_append_drop]

/- ### Unfolding the codec operations -/

@[simp] theorem length_byteBits (b : Nat) : (byteBits b).length = 8 := by
  simp [byteBits]

theorem length_entropyBits (e : List Nat) : (entropyBits e).length = 8 * e.length := by
  induction e with
  | nil => rfl
  | cons b e ih =>
    simp only [entropyBits, List.flatMap_cons, List.length_append, length_byteBits,
      List.length_cons] at ih ⊢
    omega

@[simp] theorem length_checkBits (e : List Nat) :
    (checkBits e).length = e.length / 4 := by
  simp [checkBits]

theorem from_entropy_in_eq (cfg : Config) (lang : Lang) (e : List Nat)
    (h4 : e.length % 4 = 0) (hlo : 128 ≤ e.length * 8) (hhi : e.length * 8 ≤ 256) :
    from_entropy_in cfg lang e
      = .ok (joinWords ((List.range (e.length * 3 / 4)).map fun i =>
          (cfg.table lang).wordList (wordIdxAt (entropyBits e ++ checkBits e) i))) := by
  rw [from_entropy_in, if_neg (by simp [h4]), if_neg (by simp; omega)]

theorem to_entropy_eq (cfg : Config) (m : Str) (lang : Lang) (idxs : List Nat)
    (hdet : language_of cfg m = some (.ok lang))
    (hlk : lookupAll (cfg.table lang) (splitWhitespace m) = .ok idxs) :
    to_entropy cfg m
      = some ((accumGo idxs 0 0 []).take ((splitWhitespace m).length / 3 * 4)) := by
  simp only [to_entropy, hdet, hlk]

theorem lookupAll_map_wordList (t : WordTable) (idxs : List Nat)
    (hT : ∀ i ∈ idxs, t.findWord (t.wordList i) = some i) :
    lookupAll t (idxs.map t.wordList) = .ok idxs := by
  induction idxs with
  | nil => rfl
  | cons i idxs ih =>
    rw [List.map_cons, lookupAll, hT i (by simp), ih fun j hj => hT j (by simp [hj])]

/- ## Claim C1: entropy round trip -/

/-- C1: For every language and every entropy whose byte length is a
multiple of 4 between 16 and 32, `to_entropy` inverts `from_entropy_in`
exactly.  The word table and language list are modelled from the spec, so
the table invariants (bidirectional 2048-entry map of non-empty,
whitespace-free words) and the success of language re-detection on the
generated phrase are hypotheses. -/
theorem C1_roundtrip (cfg : Config) (lang : Lang) (e : List Nat) (m : Str)
    (hT : ∀ i, i < 2048 → (cfg.table lang).findWord ((cfg.table lang).wordList i) = some i)
    (hW : ∀ i, i < 2048 → (cfg.table lang).wordList i ≠ []
        ∧ ∀ c ∈ (cfg.table lang).wordList i, isWs c = false)
    (hlen4 : e.length % 4 = 0) (h128 : 16 ≤ e.length) (h256 : e.length ≤ 32)
    (hbytes : ∀ b ∈ e, b < 256)
    (hm : from_entropy_in cfg lang e = .ok m)
    (hdet : language_of cfg m = some (.ok lang)) :
    to_entropy cfg m = some e := by
  rw [from_entropy_in_eq cfg lang e hlen4 (by omega) (by omega)] at hm
  set L := e.length with hL
  set bits := entropyBits e ++ checkBits e with hbits
  set mlen := L * 3 / 4 with hmlen
  have hlb : bits.length = 11 * mlen := by
    rw [hbits, List.length_append, length_entropyBits, length_checkBits]
    omega
  set idxs0 := (List.range mlen).map (wordIdxAt bits) with hidxs0
  have hidxlt : ∀ i ∈ idxs0, i < 2048 := by
    intro i hi
    rw [hidxs0, List.mem_map] at hi
    obtain ⟨j, hj, rfl⟩ := hi
    rw [List.mem_range] at hj
    exact wordIdxAt_lt bits j (by omega)
  have hws : (List.range mlen).map
      (fun i => (cfg.table lang).wordList (wordIdxAt bits i))
        = idxs0.map (cfg.table lang).wordList := by
    rw [hidxs0, List.map_map]
    rfl
  have hm' : m = joinWords (idxs0.map (cfg.table lang).wordList) := by
    rw [hws] at hm
    exact (Except.ok.inj hm).symm
  have hsplit : splitWhitespace m = idxs0.map (cfg.table lang).wordList := by
    rw [hm']
    apply splitWs_join
    intro w hw
    rw [List.mem_map] at hw
    obtain ⟨i, hi, rfl⟩ := hw
    exact hW i (hidxlt i hi)
  have hlk : lookupAll (cfg.table lang) (splitWhitespace m) = .ok idxs0 := by
    rw [hsplit]
    exact lookupAll_map_wordList _ _ fun i hi => hT i (hidxlt i hi)
  rw [to_entropy_eq cfg m lang idxs0 hdet hlk]
  have hacc : accumGo idxs0 0 0 [] = bytesOfBits bits := by
    rw [accumGo_spec idxs0 [] 0 0 [] rfl (by norm_num) (by simp [ofBits]) hidxlt,
      List.nil_append, List.nil_append, hidxs0, flatMap_idxBits_wordIdxAt mlen bits hlb]
  have hwlen : (splitWhitespace m).length = mlen := by
    rw [hsplit, List.length_map, hidxs0, List.length_map, List.length_range]
  have hL4 : mlen / 3 * 4 = L := by omega
  rw [hacc, hwlen, hL4]
  have hEsplit : bytesOfBits bits
      = bytesOfBitsN L bits ++ bytesOfBits (bits.drop (8 * L)) := by
    apply bytesOfBits_split
    omega
  have hEbits : bytesOfBitsN L bits = bytesOfBitsN L (entropyBits e) := by
    rw [hbits]
    apply bytesOfBitsN_append
    rw [length_entropyBits]
  have hEe : bytesOfBitsN L (entropyBits e) = e := by
    have h1 : bytesOfBits (entropyBits e)
        = bytesOfBitsN L (entropyBits e) ++ bytesOfBits ((entropyBits e).drop (8 * L)) := by
      apply bytesOfBits_split
      rw [length_entropyBits]
    have h2 : (entropyBits e).drop (8 * L) = [] := by
      apply List.drop_eq_nil_of_le
      rw [length_entropyBits]
    rw [h2, bytesOfBits, List.append_nil] at h1
    rw [← h1]
    exact bytesOfBits_flatMap_byteBits e hbytes
  rw [hEsplit, hEbits, hEe, hL, List.take_left]

/- ### The demo table satisfies the Word Table invariants -/

theorem demoWord_spec (n : Nat) (h : n < 2048) :
    demoWord n ≠ [] ∧ ∀ c ∈ demoWord n, isWs c = false := by
  constructor
  · simp [demoWord]
  · intro c hc
    rw [demoWord] at hc
    simp only [List.mem_cons, List.not_mem_nil, or_false] at hc
    have hb : 97 ≤ c ∧ c ≤ 122 := by
      rcases hc with rfl | rfl | rfl
      · constructor <;> omega
      · constructor <;> omega
      · constructor <;> omega
    rw [isWs]
    simp only [Bool.or_eq_false_iff, beq_eq_false_iff_ne, ne_eq,
      Bool.and_eq_false_iff, decide_eq_false_iff_not, not_le]
    omega

theorem demoFind_demoWord (n : Nat) (h : n < 2048) :
    demoFind (demoWord n) = some n := by
  rw [demoWord, demoFind]
  have hcond : (97 ≤ 97 + n / 676 && 97 + n / 676 < 123 && 97 ≤ 97 + n / 26 % 26 &&
      97 + n / 26 % 26 < 123 && 97 ≤ 97 + n % 26 && 97 + n % 26 < 123) = true := by
    simp only [Bool.and_eq_true, decide_eq_true_eq]
    omega
  rw [if_pos hcond]
  have hval : (97 + n / 676 - 97) * 676 + (97 + n / 26 % 26 - 97) * 26
      + (97 + n % 26 - 97) = n := by omega
  simp only [hval, if_pos h]

/-- C1 witness: the all-zero 16-byte entropy through the demo table. -/
theorem C1_roundtrip_witness :
    from_entropy_in demoCfg 0 (List.replicate 16 0) = .ok demoM1
      ∧ language_of demoCfg demoM1 = some (.ok 0)
      ∧ to_entropy demoCfg demoM1 = some (List.replicate 16 0) := by
  have hm : from_entropy_in demoCfg 0 (List.replicate 16 0) = .ok demoM1 := by decide
  have hdet : language_of demoCfg demoM1 = some (.ok 0) := by decide
  exact ⟨hm, hdet,
    C1_roundtrip demoCfg 0 (List.replicate 16 0) demoM1
      (fun i hi => demoFind_demoWord i hi)
      (fun i hi => demoWord_spec i hi)
      (by decide) (by decide) (by decide) (by decide) hm hdet⟩

/- ## Claim C9: errors are values (code bug: panic on empty input) -/

/-- C9: the claim says every fallible public operation returns a tagged
result for every input, including the empty and whitespace-only strings.
The code contradicts it: `language_of` calls
`s.split_whitespace().next().unwrap()`, which panics when the input has no
words (the `first_word.len() == 0` guard below it is unreachable, since
`split_whitespace` never yields an empty item), and `parse` inherits the
panic.  `validate_in` and `parse_in` do return error values there.  This
theorem evaluates the code at the failing inputs: `none` is the panic. -/
theorem C9_panic_on_empty :
    language_of demoCfg [] = none
      ∧ parse demoCfg id [] = none
      ∧ language_of demoCfg [32, 0x3000] = none
      ∧ parse demoCfg id [9] = none
      ∧ validate_in demoCfg 0 [] = .error (.BadWordCount 0)
      ∧ parse_in demoCfg id 0 [] = .error (.BadWordCount 0) := by decide

/- ## Claim C10: parse is NFKD-invariant -/

/-- C10: `parse` first replaces its input by `nf` (the NFKD normalization
supplied by the external crate, skipped only when the quick check certifies
the text unchanged) and then works with the normalized text alone: inputs
with equal normalizations parse identically, and a produced Mnemonic wraps
the normalized text. -/
theorem C10_parse_nfkd (cfg : Config) (nf : Str → Str) (s1 s2 : Str)
    (h : nf s1 = nf s2) :
    parse cfg nf s1 = parse cfg nf s2
      ∧ ∀ m, parse cfg nf s1 = some (.ok m) → m = nf s1 := by
  constructor
  · rw [parse, parse, h]
  · intro m hm
    rcases hlo : language_of cfg (nf s1) with _ | e
    · rw [parse, hlo] at hm
      simp at hm
    · rcases e with er | lang
      · rw [parse, hlo] at hm
        simp at hm
      · rcases hv : validate_in cfg lang (nf s1) with er | u
        · rw [parse, hlo] at hm
          simp [hv] at hm
        · rw [parse, hlo] at hm
          simp [hv] at hm
          exact hm.symm

/-- C10 witness: a concrete instance of the invariance. -/
theorem C10_parse_nfkd_witness :
    (id demoM1 = id demoM1)
      ∧ (parse demoCfg id demoM1 = parse demoCfg id demoM1
        ∧ ∀ m, parse demoCfg id demoM1 = some (.ok m) → m = id demoM1) :=
  ⟨rfl, C10_parse_nfkd demoCfg id demoM1 demoM1 rfl⟩

/- ## Claim C2: to_seed is PBKDF2-HMAC-SHA512 with the documented arguments -/

theorem utf8_append (a b : Str) : utf8 (a ++ b) = utf8 a ++ utf8 b := by
  simp [utf8]

/-- C2: `to_seed` invokes PBKDF2 (over the externally supplied
HMAC-SHA512 `hmac`) with password the NFKD-normalized mnemonic text, salt
the bytes of `"mnemonic"` followed by the NFKD-normalized passphrase,
2048 iterations, and 64 output bytes.  The hypothesis on `nf` is the fact
about real NFKD that normalization commutes with prepending the ASCII
starter-only literal `"mnemonic"`; the source normalizes the concatenation,
the claim normalizes the passphrase alone. -/
theorem C2_to_seed (hmac : List Nat → List Nat → List Nat) (nf : Str → Str)
    (hnf : ∀ p, nf (mnemonicLit ++ p) = mnemonicLit ++ nf p) (m p : Str) :
    to_seed hmac nf m p
      = pbkdf2 hmac (utf8 (nf m)) (utf8 mnemonicLit ++ utf8 (nf p)) 2048 64 := by
  rw [to_seed, hnf, utf8_append]

/-- C2 witness: a concrete instantiation (identity normalization, which
satisfies the prefix-commutation hypothesis definitionally). -/
theorem C2_to_seed_witness :
    (∀ p : Str, id (mnemonicLit ++ p) = mnemonicLit ++ id p)
      ∧ to_seed (fun _ _ => List.replicate 64 0) id [97] [98]
          = pbkdf2 (fun _ _ => List.replicate 64 0) (utf8 (id [97]))
              (utf8 mnemonicLit ++ utf8 (id [98])) 2048 64 :=
  ⟨fun _ => rfl,
   C2_to_seed (fun _ _ => List.replicate 64 0) id (fun _ => rfl) [97] [98]⟩

/- ## Claim C5: the word-count gate (corrected: the gate also admits 6) -/

/-- C5 counterexample: the claim's permitted set is {12, 18, 24}, but the
source gate is `len < 6 || len % 6 != 0 || len > 24`, which admits 6: a
6-word phrase passes the gate and proceeds to word lookup (here reporting
the unknown word instead of a word count).  Moreover `parse` on a 5-word
phrase of unknown words fails in language detection with `UnknownWord`,
not with `BadWordCount 5`. -/
theorem C5_counterexample :
    (splitWhitespace demoS6).length = 6
      ∧ validate_in demoCfg 0 demoS6 = .error (.UnknownWord demoX)
      ∧ validate_in demoCfg 0 demoS6 ≠ .error (.BadWordCount 6)
      ∧ (splitWhitespace demoS5).length = 5
      ∧ parse demoCfg id demoS5 = some (.error (.UnknownWord demoX))
      ∧ parse demoCfg id demoS5 ≠ some (.error (.BadWordCount 5)) := by
  decide

/-- C5 amended: for every input whose post-normalization word count lies
outside {6, 12, 18, 24}, `validate_in` and `parse_in` fail with
`BadWordCount` carrying that count — under every configuration, i.e.
before any word is looked up in any table — and `parse` does so whenever
language detection succeeds (otherwise it returns the detection error). -/
theorem C5_word_count_gate (cfg : Config) (lang : Lang) (nf : Str → Str) (s : Str)
    (h : (splitWhitespace (nf s)).length ∉ ([6, 12, 18, 24] : List Nat)) :
    validate_in cfg lang (nf s)
        = .error (.BadWordCount (splitWhitespace (nf s)).length)
      ∧ parse_in cfg nf lang s
        = .error (.BadWordCount (splitWhitespace (nf s)).length)
      ∧ ∀ l, language_of cfg (nf s) = some (.ok l) →
          parse cfg nf s
            = some (.error (.BadWordCount (splitWhitespace (nf s)).length)) := by
  simp only [List.mem_cons, List.not_mem_nil, or_false, not_or] at h
  have hgate : ((splitWhitespace (nf s)).length < 6
      || (splitWhitespace (nf s)).length % 6 != 0
      || (splitWhitespace (nf s)).length > 24) = true := by
    simp only [Bool.or_eq_true, decide_eq_true_eq, bne_iff_ne, ne_eq]
    omega
  have hv : ∀ lg, validate_in cfg lg (nf s)
      = .error (.BadWordCount (splitWhitespace (nf s)).length) := fun lg => by
    rw [validate_in, if_pos hgate]
  refine ⟨hv lang, ?_, ?_⟩
  · rw [parse_in, hv lang]
  · intro l hdet
    rw [parse, hdet]
    simp [hv l]

/-- C5 witness for the amended theorem: a 5-word phrase. -/
theorem C5_word_count_gate_witness :
    ((splitWhitespace (id demoS5)).length ∉ ([6, 12, 18, 24] : List Nat))
      ∧ validate_in demoCfg 0 (id demoS5) = .error (.BadWordCount 5) := by
  have h : (splitWhitespace (id demoS5)).length ∉ ([6, 12, 18, 24] : List Nat) := by
    decide
  refine ⟨h, ?_⟩
  have h2 := (C5_word_count_gate demoCfg 0 id demoS5 h).1
  rw [show (splitWhitespace (id demoS5)).length = 5 from by decide] at h2
  exact h2

/- ## Claim C6: language_of elimination behaviour -/

theorem surv_nil (cfg : Config) (b : List Lang) : surv cfg b [] = b := by
  simp [surv]

theorem surv_cons (cfg : Config) (b : List Lang) (w : Str) (ws : List Str) :
    surv cfg b (w :: ws)
      = surv cfg (b.filter fun l => ((cfg.table l).findWord w).isSome) ws := by
  rw [surv, surv, List.filter_filter]
  apply List.filter_congr
  intro l _
  simp [Bool.and_comm]

theorem surv_le_filter (cfg : Config) (b : List Lang) (ws : List Str) :
    (surv cfg b ws).length ≤ b.length :=
  List.length_filter_le _ _

theorem eliminate_ambiguous (cfg : Config) (ws : List Str) (b : List Lang)
    (h : 2 ≤ (surv cfg b ws).length) :
    eliminate cfg b ws = .error (.AmbiguousWordList (surv cfg b ws)) := by
  induction ws generalizing b with
  | nil => rw [eliminate, surv_nil]
  | cons w ws ih =>
    rw [surv_cons] at h ⊢
    have hlen : 2 ≤ (b.filter fun l => ((cfg.table l).findWord w).isSome).length :=
      le_trans h (surv_le_filter _ _ _)
    rcases hb : b.filter fun l => ((cfg.table l).findWord w).isSome with _ | ⟨x, _ | ⟨y, tl⟩⟩
    · rw [hb] at hlen; simp at hlen
    · rw [hb] at hlen; simp at hlen
    · rw [eliminate, hb, ← hb, ih]
      rwa [hb]

theorem eliminate_single (cfg : Config) (ws : List Str) (b : List Lang)
    (k : Nat) (l : Lang) (hk1 : 1 ≤ k) (hk2 : k ≤ ws.length)
    (hs : surv cfg b (ws.take k) = [l])
    (hprev : ∀ j, 1 ≤ j → j < k → 2 ≤ (surv cfg b (ws.take j)).length) :
    eliminate cfg b ws = .ok l := by
  induction ws generalizing b k with
  | nil => simp at hk2; omega
  | cons w ws ih =>
    rcases Nat.eq_or_lt_of_le hk1 with h1 | h1
    · rw [← h1] at hs
      rw [List.take_succ_cons, List.take_zero, surv_cons, surv_nil] at hs
      rw [eliminate, hs]
    · have hj : 2 ≤ k := h1
      have hb2 : 2 ≤ (b.filter fun l' => ((cfg.table l').findWord w).isSome).length := by
        have := hprev 1 le_rfl (by omega)
        rwa [List.take_succ_cons, List.take_zero, surv_cons, surv_nil] at this
      rcases hb : b.filter fun l' => ((cfg.table l').findWord w).isSome with _ | ⟨x, _ | ⟨y, tl⟩⟩
      · rw [hb] at hb2; simp at hb2
      · rw [hb] at hb2; simp at hb2
      · have hstep : eliminate cfg b (w :: ws)
            = eliminate cfg (b.filter fun l' => ((cfg.table l').findWord w).isSome) ws := by
          rw [eliminate, hb]
        rw [hstep]
        apply ih _ (k - 1) (by omega) (by simp at hk2; omega)
        · have hke : (w :: ws).take k = w :: ws.take (k - 1) := by
            conv_lhs => rw [show k = (k - 1) + 1 from by omega]
            rw [List.take_succ_cons]
          rw [hke, surv_cons] at hs
          exact hs
        · intro j hj1 hj2
          have := hprev (j + 1) (by omega) (by omega)
          rwa [List.take_succ_cons, surv_cons] at this

theorem eliminate_unknown (cfg : Config) (ws : List Str) (b : List Lang)
    (k : Nat) (hk1 : 1 ≤ k) (hk2 : k ≤ ws.length)
    (hs : surv cfg b (ws.take k) = [])
    (hprev : ∀ j, 1 ≤ j → j < k → 2 ≤ (surv cfg b (ws.take j)).length) :
    eliminate cfg b ws = .error (.UnknownWord (ws.getD (k - 1) [])) := by
  induction ws generalizing b k with
  | nil => simp at hk2; omega
  | cons w ws ih =>
    rcases Nat.eq_or_lt_of_le hk1 with h1 | h1
    · rw [← h1] at hs ⊢
      rw [List.take_succ_cons, List.take_zero, surv_cons, surv_nil] at hs
      rw [eliminate, hs]
      simp
    · have hj : 2 ≤ k := h1
      have hb2 : 2 ≤ (b.filter fun l' => ((cfg.table l').findWord w).isSome).length := by
        have := hprev 1 le_rfl (by omega)
        rwa [List.take_succ_cons, List.take_zero, surv_cons, surv_nil] at this
      rcases hb : b.filter fun l' => ((cfg.table l').findWord w).isSome with _ | ⟨x, _ | ⟨y, tl⟩⟩
      · rw [hb] at hb2; simp at hb2
      · rw [hb] at hb2; simp at hb2
      · have hstep : eliminate cfg b (w :: ws)
            = eliminate cfg (b.filter fun l' => ((cfg.table l').findWord w).isSome) ws := by
          rw [eliminate, hb]
        rw [hstep]
        have hgd : (w :: ws).getD (k - 1) [] = ws.getD (k - 1 - 1) [] := by
          rw [show k - 1 = (k - 2) + 1 from by omega]
          simp
        rw [hgd]
        apply ih _ (k - 1) (by omega) (by simp at hk2; omega)
        · have hke : (w :: ws).take k = w :: ws.take (k - 1) := by
            conv_lhs => rw [show k = (k - 1) + 1 from by omega]
            rw [List.take_succ_cons]
          rw [hke, surv_cons] at hs
          exact hs
        · intro j hj1 hj2
          have := hprev (j + 1) (by omega) (by omega)
          rwa [List.take_succ_cons, surv_cons] at this

theorem language_of_eliminate (cfg : Config) (s w0 : Str) (rest : List Str)
    (hsplit : splitWhitespace s = w0 :: rest)
    (hfast : ∀ l ∈ cfg.langs, cfg.uniq l = true → (cfg.table l).findWord w0 = none) :
    language_of cfg s = some (eliminate cfg (elimBase cfg) (w0 :: rest)) := by
  have hne : w0 ≠ [] :=
    (mem_splitWhitespace s w0 (hsplit ▸ List.mem_cons_self w0 rest)).1
  have hf : (cfg.langs.filter cfg.uniq).find?
      (fun l => ((cfg.table l).findWord w0).isSome) = none := by
    rw [List.find?_eq_none]
    intro l hl
    rw [List.mem_filter] at hl
    rw [hfast l hl.1 hl.2]
    simp
  simp only [language_of, hsplit, hf]
  rw [if_neg (by simpa using hne)]
  rfl

/-- C6: the elimination behaviour of `language_of`, for a phrase whose
first word is in no unique-words table (so the fast path does not fire).
With `surv b ws` the candidates of `b` whose tables contain every word of
`ws`: (1) as soon as exactly one candidate remains — at the first word
index `k` where the survivor count drops below two — that language is
returned; (2) if instead the count drops to zero at word `k`, the result
is `UnknownWord` carrying that word; (3) if all words leave two or more
candidates, the result is `AmbiguousWordList` listing exactly the
survivors. -/
theorem C6_language_of (cfg : Config) (s w0 : Str) (rest : List Str)
    (hsplit : splitWhitespace s = w0 :: rest)
    (hfast : ∀ l ∈ cfg.langs, cfg.uniq l = true → (cfg.table l).findWord w0 = none) :
    (∀ k l, 1 ≤ k → k ≤ (w0 :: rest).length →
        surv cfg (elimBase cfg) ((w0 :: rest).take k) = [l] →
        (∀ j, 1 ≤ j → j < k →
          2 ≤ (surv cfg (elimBase cfg) ((w0 :: rest).take j)).length) →
        language_of cfg s = some (.ok l))
      ∧ (∀ k, 1 ≤ k → k ≤ (w0 :: rest).length →
          surv cfg (elimBase cfg) ((w0 :: rest).take k) = [] →
          (∀ j, 1 ≤ j → j < k →
            2 ≤ (surv cfg (elimBase cfg) ((w0 :: rest).take j)).length) →
          language_of cfg s
            = some (.error (.UnknownWord ((w0 :: rest).getD (k - 1) []))))
      ∧ (2 ≤ (surv cfg (elimBase cfg) (w0 :: rest)).length →
          language_of cfg s
            = some (.error (.AmbiguousWordList (surv cfg (elimBase cfg) (w0 :: rest))))) := by
  refine ⟨?_, ?_, ?_⟩
  · intro k l hk1 hk2 hs hprev
    rw [language_of_eliminate cfg s w0 rest hsplit hfast,
      eliminate_single cfg (w0 :: rest) (elimBase cfg) k l hk1 hk2 hs hprev]
  · intro k hk1 hk2 hs hprev
    rw [language_of_eliminate cfg s w0 rest hsplit hfast,
      eliminate_unknown cfg (w0 :: rest) (elimBase cfg) k hk1 hk2 hs hprev]
  · intro h
    rw [language_of_eliminate cfg s w0 rest hsplit hfast,
      eliminate_ambiguous cfg (w0 :: rest) (elimBase cfg) h]

/-- C6 witness: in the two-language shared-table configuration every word
of the phrase survives in both languages, so detection is ambiguous and
lists both. -/
theorem C6_language_of_witness :
    splitWhitespace demoPhrase2 = [demoWord 0, demoWord 1]
      ∧ 2 ≤ (surv demoCfg2 (elimBase demoCfg2) [demoWord 0, demoWord 1]).length
      ∧ language_of demoCfg2 demoPhrase2
          = some (.error (.AmbiguousWordList
              (surv demoCfg2 (elimBase demoCfg2) [demoWord 0, demoWord 1]))) := by
  have hsplit : splitWhitespace demoPhrase2 = [demoWord 0, demoWord 1] := by decide
  exact ⟨hsplit, by decide,
    (C6_language_of demoCfg2 demoPhrase2 (demoWord 0) [demoWord 1] hsplit
      (by decide)).2.2 (by decide)⟩

/- ## Claim C8: infallibility of to_entropy (corrected) -/

theorem lookupAll_ok_found (t : WordTable) (ws : List Str) (idxs : List Nat)
    (h : lookupAll t ws = .ok idxs) : ∀ w ∈ ws, (t.findWord w).isSome := by
  induction ws generalizing idxs with
  | nil => simp
  | cons w ws ih =>
    intro x hx
    rw [List.mem_cons] at hx
    rw [lookupAll] at h
    rcases hf : t.findWord w with _ | i
    · rw [hf] at h; simp at h
    · rcases hx with rfl | hx
      · simp [hf]
      · rw [hf] at h
        rcases hrest : lookupAll t ws with e | idxs'
        · rw [hrest] at h; simp at h
        · exact ih idxs' hrest x hx

theorem lookupAll_found_ok (t : WordTable) (ws : List Str)
    (h : ∀ w ∈ ws, (t.findWord w).isSome) : ∃ idxs, lookupAll t ws = .ok idxs := by
  induction ws with
  | nil => exact ⟨[], rfl⟩
  | cons w ws ih =>
    obtain ⟨i, hi⟩ := Option.isSome_iff_exists.mp (h w (by simp))
    obtain ⟨idxs, hidxs⟩ := ih fun x hx => h x (by simp [hx])
    refine ⟨i :: idxs, ?_⟩
    rw [lookupAll, hi, hidxs]

theorem validate_ok_found (cfg : Config) (lang : Lang) (s : Str)
    (h : validate_in cfg lang s = .ok ()) :
    ∀ w ∈ splitWhitespace s, ((cfg.table lang).findWord w).isSome := by
  rw [validate_in] at h
  split at h
  · simp at h
  · rcases hlk : lookupAll (cfg.table lang) (splitWhitespace s) with e | idxs
    · rw [hlk] at h; simp at h
    · exact lookupAll_ok_found _ _ _ hlk

theorem to_entropy_isSome (cfg : Config) (m : Str) (lang : Lang)
    (hdet : language_of cfg m = some (.ok lang))
    (hfound : ∀ w ∈ splitWhitespace m, ((cfg.table lang).findWord w).isSome) :
    (to_entropy cfg m).isSome := by
  obtain ⟨idxs, hidxs⟩ := lookupAll_found_ok _ _ hfound
  rw [to_entropy_eq cfg m lang idxs hdet hidxs]
  rfl

theorem parse_ok_elim (cfg : Config) (nf : Str → Str) (s m : Str)
    (h : parse cfg nf s = some (.ok m)) :
    m = nf s ∧ ∃ lang, language_of cfg (nf s) = some (.ok lang)
      ∧ validate_in cfg lang (nf s) = .ok () := by
  rcases hlo : language_of cfg (nf s) with _ | e
  · rw [parse, hlo] at h; simp at h
  · rcases e with er | lang
    · rw [parse, hlo] at h; simp at h
    · rcases hv : validate_in cfg lang (nf s) with er | u
      · rw [parse, hlo] at h; simp [hv] at h
      · rw [parse, hlo] at h
        simp [hv] at h
        exact ⟨h.symm, lang, rfl, hv⟩

/-- C8 counterexample: a Mnemonic validated by `parse_in` on which
`to_entropy` panics.  Both languages of `demoCfg2` lack the unique-words
guarantee and share a word table, so every phrase that `parse_in`
validates in language 0 is ambiguous to `language_of`, whose `Err` the
`unwrap` inside `to_entropy` turns into a panic (`none`). -/
theorem C8_counterexample :
    parse_in demoCfg2 id 0 demoM1 = .ok demoM1
      ∧ to_entropy demoCfg2 demoM1 = none := by decide

/-- C8 amended: `to_entropy` is infallible on a Mnemonic produced by
`parse`; for one produced by `parse_in` (and likewise `from_entropy_in`,
cf. the C1 round-trip theorem, whose conclusion is stronger) it is
infallible provided the internal language re-detection succeeds and
returns the validating language.  Re-detection can fail — and `to_entropy`
then panics — when the word lists of several compiled non-unique languages
overlap on the phrase, as the counterexample exhibits. -/
theorem C8_to_entropy_infallible (cfg : Config) (nf : Str → Str) (s m : Str)
    (lang : Lang) :
    (parse cfg nf s = some (.ok m) → (to_entropy cfg m).isSome)
      ∧ (parse_in cfg nf lang s = .ok m →
          language_of cfg m = some (.ok lang) → (to_entropy cfg m).isSome) := by
  constructor
  · intro h
    obtain ⟨rfl, lang', hdet, hval⟩ := parse_ok_elim cfg nf s m h
    exact to_entropy_isSome cfg (nf s) lang' hdet
      (validate_ok_found cfg lang' (nf s) hval)
  · intro h hdet
    rw [parse_in] at h
    rcases hv : validate_in cfg lang (nf s) with er | u
    · rw [hv] at h
      simp at h
    · rw [hv] at h
      simp at h
      subst h
      exact to_entropy_isSome cfg (nf s) lang hdet
        (validate_ok_found cfg lang (nf s) hv)

/-- C8 witness: in the single-language configuration, `parse` accepts the
demo mnemonic and `to_entropy` succeeds on it. -/
theorem C8_to_entropy_infallible_witness :
    parse demoCfg id demoM1 = some (.ok demoM1)
      ∧ (to_entropy demoCfg demoM1).isSome := by
  have hp : parse demoCfg id demoM1 = some (.ok demoM1) := by decide
  exact ⟨hp, (C8_to_entropy_infallible demoCfg id demoM1 demoM1 0).1 hp⟩

/- ## Claim C4: pbkdf2 implements RFC 8018 -/

theorem u32be_eq_rfcINT (v : Nat) : u32_to_array_be v = rfcINT v := by
  simp [u32_to_array_be, rfcINT, List.range_succ]

theorem length_xorInto (res salt : List Nat) :
    (xorInto res salt).length = res.length := by
  simp [xorInto]
  omega

theorem zipWith_take_all (f : Nat → Nat → Nat) (a : List Nat) :
    ∀ (b : List Nat) (n : Nat),
    (List.zipWith f a b).take n = List.zipWith f (a.take n) b := by
  induction a with
  | nil => intro b n; simp
  | cons x a ih =>
    intro b n
    cases b with
    | nil => simp
    | cons y b =>
      cases n with
      | zero => simp
      | succ n => simp [ih]

theorem zipWith_zero_left (u : List Nat) :
    List.zipWith (fun a b => a ^^^ b) (List.replicate u.length 0) u = u := by
  induction u with
  | nil => rfl
  | cons x u ih => simp [List.replicate_succ, ih]

theorem rfcU_succ (hmac : List Nat → List Nat → List Nat) (pass salt : List Nat)
    (i j : Nat) :
    rfcU hmac pass salt i (j + 1) = hmac pass (rfcU hmac pass salt i j) := rfl

theorem pbkdf2Iter_take (hmac : List Nat → List Nat → List Nat) (pass : List Nat)
    (hlen : ∀ k m, (hmac k m).length = 64) (k : Nat) :
    ∀ (C u : List Nat), C.length = 64 → ∀ blen, blen ≤ 64 →
    pbkdf2Iter hmac pass k (C.take blen) u
      = (rfcIter hmac pass k C u).take blen := by
  induction k with
  | zero => intro C u _ blen _; rfl
  | succ k ih =>
    intro C u hC blen hb
    rw [pbkdf2Iter, rfcIter]
    have hx : xorInto (C.take blen) (hmac pass u)
        = (C.zipWith (fun a b => a ^^^ b) (hmac pass u)).take blen := by
      rw [xorInto, List.drop_eq_nil_of_le, List.append_nil, zipWith_take_all]
      rw [List.length_take, hlen]
      omega
    rw [hx, ih (C.zipWith (fun a b => a ^^^ b) (hmac pass u)) (hmac pass u)
      (by rw [List.length_zipWith, hC, hlen]; simp) blen hb]

theorem rfcIter_foldRange (hmac : List Nat → List Nat → List Nat)
    (pass salt : List Nat) (i : Nat) (k : Nat) :
    ∀ (C : List Nat) (j0 : Nat),
    rfcIter hmac pass k C (rfcU hmac pass salt i j0)
      = (List.range k).foldl
          (fun acc d => acc.zipWith (fun a b => a ^^^ b)
            (rfcU hmac pass salt i (j0 + 1 + d))) C := by
  induction k with
  | zero => intro C j0; rfl
  | succ k ih =>
    intro C j0
    rw [rfcIter]
    rw [show hmac pass (rfcU hmac pass salt i j0) = rfcU hmac pass salt i (j0 + 1) from rfl]
    rw [ih _ (j0 + 1), List.range_succ_eq_map, List.foldl_cons, List.foldl_map]
    have h0 : j0 + 1 + 0 = j0 + 1 := by omega
    rw [h0]
    apply List.foldl_ext
    intro acc d _
    have he : j0 + 1 + (1 + d) = j0 + 1 + 1 + d := by omega
    rw [Nat.succ_eq_add_one, Nat.add_comm d 1, he]

theorem length_rfcU (hmac : List Nat → List Nat → List Nat) (pass salt : List Nat)
    (hlen : ∀ k m, (hmac k m).length = 64) (i j : Nat) :
    (rfcU hmac pass salt i j).length = 64 := by
  cases j <;> rw [rfcU] <;> exact hlen _ _

theorem length_foldl_zip (hmac : List Nat → List Nat → List Nat)
    (pass salt : List Nat) (hlen : ∀ k m, (hmac k m).length = 64) (i : Nat)
    (l : List Nat) (g : Nat → Nat) :
    ∀ (acc : List Nat), acc.length = 64 →
    (l.foldl (fun a d => a.zipWith (fun x y => x ^^^ y)
      (rfcU hmac pass salt i (g d))) acc).length = 64 := by
  induction l with
  | nil => intro acc h; exact h
  | cons d l ih =>
    intro acc h
    rw [List.foldl_cons]
    exact ih _ (by rw [List.length_zipWith, h, length_rfcU hmac pass salt hlen]; simp)

theorem length_rfcF (hmac : List Nat → List Nat → List Nat) (pass salt : List Nat)
    (hlen : ∀ k m, (hmac k m).length = 64) (i c : Nat) :
    (rfcF hmac pass salt i c).length = 64 := by
  rw [rfcF]
  exact length_foldl_zip hmac pass salt hlen i (List.range c) id _ (by simp)

theorem rfcF_eq_iter (hmac : List Nat → List Nat → List Nat) (pass salt : List Nat)
    (hlen : ∀ k m, (hmac k m).length = 64) (i c : Nat) (hc : 1 ≤ c) :
    rfcF hmac pass salt i c
      = rfcIter hmac pass (c - 1) (rfcU hmac pass salt i 0) (rfcU hmac pass salt i 0) := by
  rw [rfcF, rfcIter_foldRange hmac pass salt i (c - 1) _ 0,
    show c = (c - 1) + 1 from by omega, List.range_succ_eq_map, List.foldl_cons,
    List.foldl_map]
  have h0 : (List.replicate 64 0).zipWith (fun a b => a ^^^ b)
      (rfcU hmac pass salt i 0) = rfcU hmac pass salt i 0 := by
    rw [show (64 : Nat) = (rfcU hmac pass salt i 0).length from
      (length_rfcU hmac pass salt hlen i 0).symm]
    exact zipWith_zero_left _
  rw [h0, show (c - 1) + 1 - 1 = c - 1 from by omega]
  apply List.foldl_ext
  intro acc d _
  have he : 0 + 1 + d = d + 1 := by omega
  rw [Nat.succ_eq_add_one, he]

theorem pbkdf2Block_eq (hmac : List Nat → List Nat → List Nat) (pass salt : List Nat)
    (hlen : ∀ k m, (hmac k m).length = 64) (c i blen : Nat) (hb : blen ≤ 64)
    (hc : 1 ≤ c) :
    pbkdf2Block hmac pass salt c i blen
      = (rfcF hmac pass salt (i + 1) c).take blen := by
  rw [pbkdf2Block]
  have hu1 : hmac pass (salt ++ u32_to_array_be (i + 1))
      = rfcU hmac pass salt (i + 1) 0 := by
    rw [rfcU, u32be_eq_rfcINT]
  have hx0 : xorInto (List.replicate blen 0) (hmac pass (salt ++ u32_to_array_be (i + 1)))
      = ((rfcU hmac pass salt (i + 1) 0).take blen) := by
    rw [hu1, xorInto, List.drop_eq_nil_of_le
      (by rw [List.length_replicate, length_rfcU hmac pass salt hlen]; omega),
      List.append_nil,
      show List.replicate blen 0 = (List.replicate 64 0).take blen from by
        rw [List.take_replicate]; congr 1; omega]
    rw [← zipWith_take_all,
      show (List.replicate 64 0 : List Nat) = List.replicate (rfcU hmac pass salt (i + 1) 0).length 0 from by
        rw [length_rfcU hmac pass salt hlen],
      zipWith_zero_left]
  rw [hx0, hu1,
    pbkdf2Iter_take hmac pass hlen (c - 1) (rfcU hmac pass salt (i + 1) 0)
      (rfcU hmac pass salt (i + 1) 0) (length_rfcU hmac pass salt hlen _ _) blen hb,
    ← rfcF_eq_iter hmac pass salt hlen (i + 1) c hc]

theorem flatten_map_64_length (B : Nat → List Nat) (hB : ∀ i, (B i).length = 64)
    (n : Nat) : ((List.range n).map B).flatten.length = 64 * n := by
  induction n with
  | zero => rfl
  | succ n ih =>
    rw [List.range_succ, List.map_append, List.flatten_append, List.length_append, ih]
    simp [hB]
    ring

theorem flatten_take_blocks (n : Nat) :
    ∀ (B : Nat → List Nat), (∀ i, (B i).length = 64) → ∀ L, L ≤ 64 * n →
    ((List.range n).map fun i => (B i).take (min 64 (L - 64 * i))).flatten
      = ((List.range n).map B).flatten.take L := by
  induction n with
  | zero => intro B _ L hL; simp
  | succ n ih =>
    intro B hB L hL
    rw [List.range_succ_eq_map, List.map_cons, List.map_cons, List.map_map,
      List.map_map, List.flatten_cons, List.flatten_cons]
    have h1 : (fun i => (B i).take (min 64 (L - 64 * i))) ∘ Nat.succ
        = fun i => (B (i + 1)).take (min 64 ((L - 64) - 64 * i)) := by
      funext i
      simp only [Function.comp_apply, Nat.succ_eq_add_one]
      have he : L - 64 * (i + 1) = L - 64 - 64 * i := by omega
      rw [he]
    rw [h1, ih (fun i => B (i + 1)) (fun i => hB (i + 1)) (L - 64) (by omega),
      List.take_append_eq_append_take, hB 0]
    congr 1
    have h0 : L - 64 * 0 = L := by omega
    rw [h0]
    rcases le_or_lt L 64 with h | h
    · rw [min_eq_right h]
    · rw [min_eq_left (by omega), List.take_of_length_le (by rw [hB 0]),
        List.take_of_length_le (by rw [hB 0]; omega)]

/-- C4: `pbkdf2` implements RFC 8018: each block is the XOR-accumulation
of `U_1 = HMAC(P, S ‖ INT(i))` (big-endian 32-bit block index, 1-based)
and `U_(j+1) = HMAC(P, U_j)` up to the iteration count; the blocks are
concatenated and truncated to exactly the requested output length
(including lengths not a multiple of 64).  HMAC-SHA512 is the externally
supplied primitive, assumed to produce 64-byte MACs. -/
theorem C4_pbkdf2_rfc (hmac : List Nat → List Nat → List Nat)
    (hlen : ∀ k m, (hmac k m).length = 64) (pass salt : List Nat)
    (c dkLen : Nat) (hc : 1 ≤ c) :
    pbkdf2 hmac pass salt c dkLen
      = (((List.range ((dkLen + 63) / 64)).map
          fun i => rfcF hmac pass salt (i + 1) c).flatten).take dkLen
      ∧ (pbkdf2 hmac pass salt c dkLen).length = dkLen := by
  have hB : ∀ i, (rfcF hmac pass salt (i + 1) c).length = 64 :=
    fun i => length_rfcF hmac pass salt hlen (i + 1) c
  have hmain : pbkdf2 hmac pass salt c dkLen
      = (((List.range ((dkLen + 63) / 64)).map
          fun i => rfcF hmac pass salt (i + 1) c).flatten).take dkLen := by
    rw [pbkdf2]
    rw [List.map_congr_left (fun i _ =>
      pbkdf2Block_eq hmac pass salt hlen c i (min 64 (dkLen - 64 * i)) (by omega) hc)]
    exact flatten_take_blocks ((dkLen + 63) / 64)
      (fun i => rfcF hmac pass salt (i + 1) c) hB dkLen (by omega)
  refine ⟨hmain, ?_⟩
  rw [hmain, List.length_take, flatten_map_64_length _ hB]
  omega

/-- C4 witness: one iteration, a 5-byte output, and a constant MAC. -/
theorem C4_pbkdf2_rfc_witness :
    (∀ k m : List Nat, ((fun _ _ => List.replicate 64 (0 : Nat)) k m).length = 64)
      ∧ (pbkdf2 (fun _ _ => List.replicate 64 0) [1] [2] 1 5
          = (((List.range ((5 + 63) / 64)).map
              fun i => rfcF (fun _ _ => List.replicate 64 0) [1] [2] (i + 1) 1).flatten).take 5
        ∧ (pbkdf2 (fun _ _ => List.replicate 64 0) [1] [2] 1 5).length = 5) :=
  ⟨fun _ _ => by simp,
   C4_pbkdf2_rfc (fun _ _ => List.replicate 64 0) (fun _ _ => by simp) [1] [2] 1 5 le_rfl⟩

/- ## Claim C3: the checksum comparison of validate_in -/

theorem shaRound_length (w s : List Nat) (t : Nat) (h : s.length = 8) :
    (shaRound w s t).length = 8 := by
  rcases s with _ | ⟨a, _ | ⟨b, _ | ⟨c, _ | ⟨d, _ | ⟨e, _ | ⟨f, _ | ⟨g, _ | ⟨x, _ | ⟨y, s⟩⟩⟩⟩⟩⟩⟩⟩⟩ <;>
    simp_all [shaRound]

theorem shaCompress_length (h block : List Nat) (hl : h.length = 8) :
    (shaCompress h block).length = 8 := by
  simp only [shaCompress]
  have hst : ∀ (l : List Nat) (s : List Nat), s.length = 8 →
      (l.foldl (shaRound (shaExtend (beWords block))) s).length = 8 := by
    intro l
    induction l with
    | nil => intro s hs; exact hs
    | cons t l ih => intro s hs; exact ih _ (shaRound_length _ s t hs)
  rw [List.length_zipWith, hl, hst _ _ hl]
  simp

theorem sha256go_length (fuel : Nat) (h m : List Nat) (hl : h.length = 8) :
    (sha256go fuel h m).length = 8 := by
  induction fuel generalizing h m with
  | zero => rcases m with _ | ⟨b, ms⟩ <;> simpa [sha256go]
  | succ fuel ih =>
    rcases m with _ | ⟨b, ms⟩
    · simpa [sha256go]
    · rw [sha256go]
      exact ih _ _ (shaCompress_length _ _ hl)

theorem length_flatMap_wordBytes (l : List Nat) :
    (l.flatMap wordBytes).length = 4 * l.length := by
  induction l with
  | nil => rfl
  | cons x l ih =>
    simp only [List.flatMap_cons, List.length_append, wordBytes, List.length_cons,
      List.length_nil, ih]
    omega

theorem length_sha256 (m : List Nat) : (sha256 m).length = 32 := by
  rw [sha256, length_flatMap_wordBytes, sha256go_length _ _ _ (by rfl)]

theorem lookupAll_length (t : WordTable) (ws : List Str) (idxs : List Nat)
    (h : lookupAll t ws = .ok idxs) : idxs.length = ws.length := by
  induction ws generalizing idxs with
  | nil =>
    simp only [lookupAll] at h
    injection h with h
    subst h
    rfl
  | cons w ws ih =>
    rw [lookupAll] at h
    rcases hf : t.findWord w with _ | i
    · rw [hf] at h; simp at h
    · rw [hf] at h
      rcases hl : lookupAll t ws with e | idxs2
      · rw [hl] at h; simp at h
      · rw [hl] at h
        injection h with h
        subst h
        simp [ih idxs2 hl]

theorem length_flatMap_idxBits (l : List Nat) :
    (l.flatMap idxBits).length = 11 * l.length := by
  induction l with
  | nil => rfl
  | cons x l ih =>
    rw [List.flatMap_cons, List.length_append, length_idxBits, ih, List.length_cons]
    ring

theorem flatMap_byteBits_getD (l : List Nat) (i : Nat) (h : i < 8 * l.length) :
    (l.flatMap byteBits).getD i false
      = (l.getD (i / 8) 0 &&& (1 <<< (7 - i % 8)) != 0) := by
  induction l generalizing i with
  | nil => simp at h
  | cons b t ih =>
    rw [List.flatMap_cons]
    rcases Nat.lt_or_ge i 8 with hi | hi
    · rw [List.getD_append _ _ _ _ (by rw [length_byteBits]; omega),
        Nat.div_eq_of_lt hi, Nat.mod_eq_of_lt hi]
      simp only [byteBits, List.getD_eq_getElem?_getD, List.getElem?_map,
        List.getElem?_range hi, List.getD_cons_zero]
      simp
    · rw [List.getD_append_right _ _ _ _ (by rw [length_byteBits]; omega),
        length_byteBits,
        ih (i - 8) (by simp only [List.length_cons] at h; omega)]
      have h1 : (i - 8) / 8 = i / 8 - 1 := by omega
      have h2 : (i - 8) % 8 = i % 8 := by omega
      have h3 : (b :: t).getD (i / 8) 0 = t.getD (i / 8 - 1) 0 := by
        have hq : i / 8 = (i / 8 - 1) + 1 := by omega
        conv_lhs => rw [hq]
        rw [List.getD_cons_succ]
      rw [h1, h2, h3]

theorem checksumOk_iff_lists (bits : List Bool) (entropy : List Nat)
    (hlen : bits.length = 8 * entropy.length + entropy.length / 4)
    (hn : entropy.length / 4 ≤ 256) :
    (checksumOk bits entropy = true
      ↔ bits.drop (8 * entropy.length)
          = ((sha256 entropy).flatMap byteBits).take (entropy.length / 4)) := by
  have hflatlen : ((sha256 entropy).flatMap byteBits).length = 256 := by
    have h8 := length_entropyBits (sha256 entropy)
    simp only [entropyBits] at h8
    rw [h8, length_sha256]
  have hdrop : bits.drop (8 * entropy.length)
      = (List.range (entropy.length / 4)).map fun j =>
          bits.getD (8 * entropy.length + j) false := by
    rw [map_getD_slice _ _ _ (by omega)]
    rw [List.take_of_length_le]
    rw [List.length_drop]
    omega
  have htake : ((sha256 entropy).flatMap byteBits).take (entropy.length / 4)
      = (List.range (entropy.length / 4)).map fun j =>
          ((sha256 entropy).flatMap byteBits).getD (0 + j) false := by
    rw [map_getD_slice _ _ _ (by omega)]
    simp
  rw [hdrop, htake, checksumOk]
  constructor
  · intro h
    apply List.map_congr_left
    intro i hi
    rw [List.mem_range] at hi
    rw [List.all_eq_true] at h
    have hh := h i (List.mem_range.mpr hi)
    rw [beq_iff_eq] at hh
    rw [hh, Nat.zero_add, flatMap_byteBits_getD _ _ (by rw [length_sha256]; omega)]
  · intro h
    rw [List.map_inj_left] at h
    rw [List.all_eq_true]
    intro i hi
    rw [List.mem_range] at hi
    rw [beq_iff_eq]
    have h2 := h i (List.mem_range.mpr hi)
    simp only [Nat.zero_add] at h2
    rw [h2, flatMap_byteBits_getD _ _ (by rw [length_sha256]; omega)]

/-- C3: for every input that passes the word-count gate and all of whose
words resolve in the chosen language's table, `validate_in` succeeds
exactly when the trailing checksum bits of the reassembled 11-bit-per-word
bit string (the bits past the first `8 * entropy.len()`) equal the leading
`entropy.len() / 4` bits of the SHA-256 digest of the reassembled entropy
bytes, and on any mismatch it returns `InvalidChecksum`. -/
theorem C3_validate_checksum (cfg : Config) (lang : Lang) (s : Str) (idxs : List Nat)
    (h6 : 6 ≤ (splitWhitespace s).length) (hm : (splitWhitespace s).length % 6 = 0)
    (h24 : (splitWhitespace s).length ≤ 24)
    (hlook : lookupAll (cfg.table lang) (splitWhitespace s) = .ok idxs) :
    (validate_in cfg lang s = .ok ()
      ↔ (idxs.flatMap idxBits).drop
            (8 * (reassembled (idxs.flatMap idxBits)).length)
          = ((sha256 (reassembled (idxs.flatMap idxBits))).flatMap byteBits).take
              ((reassembled (idxs.flatMap idxBits)).length / 4))
    ∧ (validate_in cfg lang s ≠ .ok ()
        → validate_in cfg lang s = .error .InvalidChecksum) := by
  have hgate : ¬ ((splitWhitespace s).length < 6
      || (splitWhitespace s).length % 6 != 0
      || (splitWhitespace s).length > 24) = true := by
    simp only [Bool.or_eq_true, decide_eq_true_eq, bne_iff_ne, ne_eq]
    omega
  have hv : validate_in cfg lang s
      = if checksumOk (idxs.flatMap idxBits) (reassembled (idxs.flatMap idxBits))
        then .ok () else .error .InvalidChecksum := by
    rw [validate_in, if_neg hgate, hlook]
  have hwlen : idxs.length = (splitWhitespace s).length :=
    lookupAll_length _ _ _ hlook
  have hbl : (idxs.flatMap idxBits).length = 11 * idxs.length :=
    length_flatMap_idxBits idxs
  have hEl : (reassembled (idxs.flatMap idxBits)).length
      = (idxs.flatMap idxBits).length / 33 * 4 := by
    simp [reassembled]
  have hiff := checksumOk_iff_lists (idxs.flatMap idxBits)
      (reassembled (idxs.flatMap idxBits)) (by omega) (by omega)
  constructor
  · rw [hv, ← hiff]
    cases checksumOk (idxs.flatMap idxBits) (reassembled (idxs.flatMap idxBits)) <;>
      simp
  · intro hne
    rw [hv] at hne ⊢
    cases hc : checksumOk (idxs.flatMap idxBits) (reassembled (idxs.flatMap idxBits)) with
    | false => rw [if_neg (by simp [hc])]
    | true => rw [hc] at hne; simp at hne

/-- C3 witness: the valid 12-word demo mnemonic of the all-zero entropy,
whose word indices are eleven zeros and a final 3. -/
theorem C3_validate_checksum_witness :
    (6 ≤ (splitWhitespace demoM1).length
      ∧ (splitWhitespace demoM1).length % 6 = 0
      ∧ (splitWhitespace demoM1).length ≤ 24
      ∧ lookupAll (demoCfg.table 0) (splitWhitespace demoM1)
          = .ok [0, 0, 0, 0, 0, 0, 0, 0, 0, 0, 0, 3])
    ∧ ((validate_in demoCfg 0 demoM1 = .ok ()
        ↔ (([0, 0, 0, 0, 0, 0, 0, 0, 0, 0, 0, 3] : List Nat).flatMap idxBits).drop
              (8 * (reassembled
                (([0, 0, 0, 0, 0, 0, 0, 0, 0, 0, 0, 3] : List Nat).flatMap idxBits)).length)
            = ((sha256 (reassembled
                (([0, 0, 0, 0, 0, 0, 0, 0, 0, 0, 0, 3] : List Nat).flatMap
                  idxBits))).flatMap byteBits).take
                ((reassembled
                  (([0, 0, 0, 0, 0, 0, 0, 0, 0, 0, 0, 3] : List Nat).flatMap
                    idxBits)).length / 4))
      ∧ (validate_in demoCfg 0 demoM1 ≠ .ok ()
          → validate_in demoCfg 0 demoM1 = .error .InvalidChecksum)) :=
  ⟨⟨by decide, by decide, by decide, by decide⟩,
   C3_validate_checksum demoCfg 0 demoM1 [0, 0, 0, 0, 0, 0, 0, 0, 0, 0, 0, 3]
     (by decide) (by decide) (by decide) (by decide)⟩

/- ## Claim C7: checksum sensitivity to a one-word change -/

theorem lookupAll_error_mem (t : WordTable) (l : List Str) (e : Error)
    (h : lookupAll t l = .error e) :
    ∃ w ∈ l, t.findWord w = none ∧ e = .UnknownWord w := by
  induction l generalizing e with
  | nil => simp [lookupAll] at h
  | cons w ws ih =>
    rw [lookupAll] at h
    rcases hf : t.findWord w with _ | i
    · rw [hf] at h
      injection h with h
      exact ⟨w, by simp, hf, h.symm⟩
    · rw [hf] at h
      rcases hl2 : lookupAll t ws with e2 | idxs2
      · rw [hl2] at h
        injection h with h
        obtain ⟨x, hx, hfx, he⟩ := ih e2 hl2
        exact ⟨x, by simp [hx], hfx, by rw [← h, he]⟩
      · rw [hl2] at h
        simp at h

theorem lookupAll_getD (t : WordTable) (l : List Str) (idxs : List Nat)
    (h : lookupAll t l = .ok idxs) :
    ∀ k, k < l.length → t.findWord (l.getD k []) = some (idxs.getD k 0) := by
  induction l generalizing idxs with
  | nil => intro k hk; simp at hk
  | cons w ws ih =>
    intro k hk
    rw [lookupAll] at h
    rcases hf : t.findWord w with _ | i
    · rw [hf] at h; simp at h
    · rw [hf] at h
      rcases hl2 : lookupAll t ws with e | idxs2
      · rw [hl2] at h; simp at h
      · rw [hl2] at h
        injection h with h
        subst h
        rcases k with _ | k
        · simpa using hf
        · simp only [List.getD_cons_succ]
          exact ih idxs2 hl2 k (by simp at hk; omega)

theorem drop_take_flatMap_idxBits (l : List Nat) (j : Nat) (hj : j < l.length) :
    ((l.flatMap idxBits).drop (11 * j)).take 11 = idxBits (l.getD j 0) := by
  induction l generalizing j with
  | nil => simp at hj
  | cons x t ih =>
    rcases j with _ | j
    · rw [List.flatMap_cons]
      simp only [Nat.mul_zero, List.drop_zero, List.getD_cons_zero]
      rw [List.take_append_of_le_length (by simp [length_idxBits]),
        List.take_of_length_le (by simp [length_idxBits])]
    · rw [List.flatMap_cons]
      have h11 : 11 * (j + 1) = 11 + 11 * j := by ring
      rw [h11, ← List.drop_drop, List.drop_left' (length_idxBits x),
        List.getD_cons_succ]
      exact ih j (by simp at hj; omega)

theorem idxBits_inj (i i2 : Nat) (h1 : i < 2048) (h2 : i2 < 2048)
    (h : idxBits i = idxBits i2) : i = i2 := by
  rw [← ofBits_idxBits i h1, ← ofBits_idxBits i2 h2, h]

theorem reassembled_congr_bits (bits bits2 : List Bool)
    (hl : bits2.length = bits.length)
    (hlen : bits.length
      = 8 * (reassembled bits).length + (reassembled bits).length / 4)
    (hn : (reassembled bits).length / 4 ≤ 256)
    (hc : checksumOk bits (reassembled bits) = true)
    (hc2 : checksumOk bits2 (reassembled bits2) = true)
    (hre : reassembled bits2 = reassembled bits) :
    bits2 = bits := by
  have hE : (reassembled bits).length = bits.length / 33 * 4 := by
    simp [reassembled]
  have hd1 := (checksumOk_iff_lists bits (reassembled bits) hlen hn).mp hc
  rw [hre] at hc2
  have hd2 := (checksumOk_iff_lists bits2 (reassembled bits)
    (by rw [hl]; exact hlen) hn).mp hc2
  have hdropEq : bits2.drop (8 * (reassembled bits).length)
      = bits.drop (8 * (reassembled bits).length) := by rw [hd1, hd2]
  have hrr : bits2.length / 33 * 4 = bits.length / 33 * 4 := by rw [hl]
  have hre2 := hre
  rw [reassembled, reassembled, hrr, List.map_inj_left] at hre2
  have hslice : ∀ i, i < (reassembled bits).length →
      (bits2.drop (i * 8)).take 8 = (bits.drop (i * 8)).take 8 := by
    intro i hi
    have hb := hre2 i (List.mem_range.mpr (by omega))
    rw [byteAt_eq bits2 i (by omega), byteAt_eq bits i (by omega)] at hb
    have e1 := bitsBE_ofBits ((bits2.drop (i * 8)).take 8)
    have e2 := bitsBE_ofBits ((bits.drop (i * 8)).take 8)
    rw [show ((bits2.drop (i * 8)).take 8).length = 8 by
        rw [List.length_take, List.length_drop]; omega] at e1
    rw [show ((bits.drop (i * 8)).take 8).length = 8 by
        rw [List.length_take, List.length_drop]; omega] at e2
    rw [← e1, ← e2, hb]
  have hpt : ∀ k, bits2.getD k false = bits.getD k false := by
    intro k
    rcases Nat.lt_or_ge k (8 * (reassembled bits).length) with hk | hk
    · have hsl := hslice (k / 8) (by omega)
      rw [← map_getD_slice bits2 (k / 8 * 8) 8 (by omega),
        ← map_getD_slice bits (k / 8 * 8) 8 (by omega),
        List.map_inj_left] at hsl
      have hm := hsl (k % 8) (List.mem_range.mpr (Nat.mod_lt _ (by norm_num)))
      have hk8 : k / 8 * 8 + k % 8 = k := by omega
      rwa [hk8] at hm
    · rcases Nat.lt_or_ge k bits.length with hk2 | hk2
      · have hdg := congrArg
          (fun l => l.getD (k - 8 * (reassembled bits).length) false) hdropEq
        simp only at hdg
        rw [getD_drop, getD_drop] at hdg
        rwa [show 8 * (reassembled bits).length
            + (k - 8 * (reassembled bits).length) = k by omega] at hdg
      · rw [List.getD_eq_getElem?_getD, List.getD_eq_getElem?_getD,
          List.getElem?_eq_none (by omega), List.getElem?_eq_none (by omega)]
  apply List.ext_getElem hl
  intro k h1 h2
  have hk := hpt k
  rw [List.getD_eq_getElem?_getD, List.getD_eq_getElem?_getD,
    List.getElem?_eq_getElem h1, List.getElem?_eq_getElem h2] at hk
  simpa using hk

theorem demoFind_sound (w : Str) (i : Nat) (h : demoFind w = some i) :
    w = demoWord i ∧ i < 2048 := by
  rcases w with _ | ⟨a, _ | ⟨b, _ | ⟨c, _ | ⟨d, t⟩⟩⟩⟩
  · simp [demoFind] at h
  · simp [demoFind] at h
  · simp [demoFind] at h
  · simp only [demoFind] at h
    split_ifs at h with h1 h2
    · injection h with h
      subst h
      simp only [Bool.and_eq_true, decide_eq_true_eq] at h1
      obtain ⟨⟨⟨⟨⟨ha1, ha2⟩, hb1⟩, hb2⟩, hc1⟩, hc2⟩ := h1
      refine ⟨?_, h2⟩
      simp only [demoWord, List.cons.injEq, and_true]
      exact ⟨by omega, by omega, by omega⟩
  · simp [demoFind] at h

/-- C7 counterexample: replacing exactly the first word of the valid demo
mnemonic `demoM1` (word index 0) by the different table word of index 7
yields `demoM2`, which also passes validation — the claim's "never
succeeds" is false.  The 11-bit index change lands in the entropy bits and
the new entropy's SHA-256 happens to share the 4 checksum bits. -/
theorem C7_counterexample :
    validate_in demoCfg 0 demoM1 = .ok ()
      ∧ validate_in demoCfg 0 demoM2 = .ok ()
      ∧ splitWhitespace demoM2 = (splitWhitespace demoM1).set 0 (demoWord 7)
      ∧ demoWord 7 ≠ (splitWhitespace demoM1).getD 0 [] := by
  decide

/-- C7 amended: over a word table that is injective with 11-bit indices
(as the spec's Word Table invariant guarantees), replacing one word of a
valid phrase by a different string either fails with `UnknownWord` on that
string, or fails with `InvalidChecksum`, or succeeds but decodes to a
different entropy — a silent success carrying the original entropy is
impossible. -/
theorem C7_word_change (cfg : Config) (lang : Lang) (ws : List Str)
    (idxs : List Nat) (j : Nat) (w2 : Str)
    (hinj : ∀ x y i, (cfg.table lang).findWord x = some i
      → (cfg.table lang).findWord y = some i → x = y)
    (hrange : ∀ x i, (cfg.table lang).findWord x = some i → i < 2048)
    (hwords : ∀ w ∈ ws, w ≠ [] ∧ ∀ c ∈ w, isWs c = false)
    (hw1 : w2 ≠ []) (hw2 : ∀ c ∈ w2, isWs c = false)
    (hj : j < ws.length) (hdiff : w2 ≠ ws.getD j [])
    (hok : validate_in cfg lang (joinWords ws) = .ok ())
    (hlook : lookupAll (cfg.table lang) ws = .ok idxs) :
    validate_in cfg lang (joinWords (ws.set j w2)) = .error (.UnknownWord w2)
      ∨ validate_in cfg lang (joinWords (ws.set j w2)) = .error .InvalidChecksum
      ∨ (validate_in cfg lang (joinWords (ws.set j w2)) = .ok ()
          ∧ ∃ idxs2, lookupAll (cfg.table lang) (ws.set j w2) = .ok idxs2
            ∧ reassembled (idxs2.flatMap idxBits)
                ≠ reassembled (idxs.flatMap idxBits)) := by
  have hsplit : splitWhitespace (joinWords ws) = ws := splitWs_join ws hwords
  have hwords2 : ∀ w ∈ ws.set j w2, w ≠ [] ∧ ∀ c ∈ w, isWs c = false := by
    intro w hw
    rcases List.mem_or_eq_of_mem_set hw with h | h
    · exact hwords w h
    · subst h; exact ⟨hw1, hw2⟩
  have hsplit2 : splitWhitespace (joinWords (ws.set j w2)) = ws.set j w2 :=
    splitWs_join _ hwords2
  have hgate : ¬ ((ws.length < 6 || ws.length % 6 != 0 || ws.length > 24)
      = true) := by
    intro hg
    rw [validate_in, hsplit, if_pos hg] at hok
    simp at hok
  have hvo : validate_in cfg lang (joinWords ws)
      = if checksumOk (idxs.flatMap idxBits) (reassembled (idxs.flatMap idxBits))
        then .ok () else .error .InvalidChecksum := by
    rw [validate_in, hsplit, if_neg hgate, hlook]
  have hco : checksumOk (idxs.flatMap idxBits)
      (reassembled (idxs.flatMap idxBits)) = true := by
    rcases hc : checksumOk (idxs.flatMap idxBits)
        (reassembled (idxs.flatMap idxBits)) with _ | _
    · rw [hvo, if_neg (by simp [hc])] at hok
      simp at hok
    · rfl
  rcases hlk2 : lookupAll (cfg.table lang) (ws.set j w2) with e | idxs2
  · left
    obtain ⟨w, hw, hwn, he⟩ := lookupAll_error_mem _ _ _ hlk2
    have hwe : w = w2 := by
      rcases List.mem_or_eq_of_mem_set hw with hmem | hmem
      · exfalso
        have hsome := lookupAll_ok_found _ _ _ hlook w hmem
        rw [hwn] at hsome
        simp at hsome
      · exact hmem
    have hv2 : validate_in cfg lang (joinWords (ws.set j w2)) = .error e := by
      rw [validate_in, hsplit2, List.length_set, if_neg hgate, hlk2]
    rw [hv2, he, hwe]
  · have hv2 : validate_in cfg lang (joinWords (ws.set j w2))
        = if checksumOk (idxs2.flatMap idxBits)
            (reassembled (idxs2.flatMap idxBits))
          then .ok () else .error .InvalidChecksum := by
      rw [validate_in, hsplit2, List.length_set, if_neg hgate, hlk2]
    rcases hc2 : checksumOk (idxs2.flatMap idxBits)
        (reassembled (idxs2.flatMap idxBits)) with _ | _
    · right; left
      rw [hv2, if_neg (by simp [hc2])]
    · right; right
      refine ⟨by rw [hv2, if_pos (by simp [hc2])], idxs2, rfl, ?_⟩
      intro hre
      have hl1 : idxs.length = ws.length := lookupAll_length _ _ _ hlook
      have hl2 : idxs2.length = ws.length := by
        have hll := lookupAll_length _ _ _ hlk2
        rwa [List.length_set] at hll
      have hb1 : (idxs.flatMap idxBits).length = 11 * ws.length := by
        rw [length_flatMap_idxBits, hl1]
      have hb2 : (idxs2.flatMap idxBits).length = 11 * ws.length := by
        rw [length_flatMap_idxBits, hl2]
      have hga : 6 ≤ ws.length ∧ ws.length % 6 = 0 ∧ ws.length ≤ 24 := by
        by_contra hga
        apply hgate
        simp only [Bool.or_eq_true, decide_eq_true_eq, bne_iff_ne, ne_eq]
        omega
      have hEl : (reassembled (idxs.flatMap idxBits)).length
          = (idxs.flatMap idxBits).length / 33 * 4 := by
        simp [reassembled]
      obtain ⟨hga1, hga2, hga3⟩ := hga
      have hbits : idxs2.flatMap idxBits = idxs.flatMap idxBits :=
        reassembled_congr_bits (idxs.flatMap idxBits) (idxs2.flatMap idxBits)
          (by omega) (by omega) (by omega) hco hc2 hre
      have hptr1 := lookupAll_getD _ _ _ hlook j hj
      have hptr2 := lookupAll_getD _ _ _ hlk2 j (by rw [List.length_set]; exact hj)
      have hset : (ws.set j w2).getD j [] = w2 := by
        rw [List.getD_eq_getElem?_getD,
          List.getElem?_eq_getElem (by rw [List.length_set]; exact hj)]
        simp
      rw [hset] at hptr2
      have hs1 : ((idxs.flatMap idxBits).drop (11 * j)).take 11
          = idxBits (idxs.getD j 0) :=
        drop_take_flatMap_idxBits idxs j (by omega)
      have hs2 : ((idxs2.flatMap idxBits).drop (11 * j)).take 11
          = idxBits (idxs2.getD j 0) :=
        drop_take_flatMap_idxBits idxs2 j (by omega)
      have hieq : idxs2.getD j 0 = idxs.getD j 0 := by
        apply idxBits_inj _ _ (hrange _ _ hptr2) (hrange _ _ hptr1)
        rw [← hs1, ← hs2, hbits]
      apply hdiff
      apply hinj w2 (ws.getD j []) (idxs.getD j 0)
      · rw [← hieq]; exact hptr2
      · exact hptr1

/-- C7 witness for the amended theorem: replacing the first word of the
demo word list (index 0) by the table word of index 7.  The conclusion's
left disjuncts are false here — the phrase still validates — so the
theorem's guarantee is the changed entropy. -/
theorem C7_word_change_witness :
    ((∀ x y i, (demoCfg.table 0).findWord x = some i
        → (demoCfg.table 0).findWord y = some i → x = y)
      ∧ (∀ w ∈ demoWords1, w ≠ [] ∧ ∀ c ∈ w, isWs c = false)
      ∧ 0 < demoWords1.length
      ∧ demoWord 7 ≠ demoWords1.getD 0 []
      ∧ validate_in demoCfg 0 (joinWords demoWords1) = .ok ()
      ∧ lookupAll (demoCfg.table 0) demoWords1
          = .ok [0, 0, 0, 0, 0, 0, 0, 0, 0, 0, 0, 3])
    ∧ (validate_in demoCfg 0 (joinWords (demoWords1.set 0 (demoWord 7)))
          = .error (.UnknownWord (demoWord 7))
      ∨ validate_in demoCfg 0 (joinWords (demoWords1.set 0 (demoWord 7)))
          = .error .InvalidChecksum
      ∨ (validate_in demoCfg 0 (joinWords (demoWords1.set 0 (demoWord 7)))
            = .ok ()
          ∧ ∃ idxs2, lookupAll (demoCfg.table 0) (demoWords1.set 0 (demoWord 7))
              = .ok idxs2
            ∧ reassembled (idxs2.flatMap idxBits)
                ≠ reassembled
                    (([0, 0, 0, 0, 0, 0, 0, 0, 0, 0, 0, 3] : List Nat).flatMap
                      idxBits))) :=
  ⟨⟨fun x y i h1 h2 => by
      rw [(demoFind_sound x i h1).1, (demoFind_sound y i h2).1],
    by decide, by decide, by decide, by decide, by decide⟩,
   C7_word_change demoCfg 0 demoWords1 [0, 0, 0, 0, 0, 0, 0, 0, 0, 0, 0, 3] 0
     (demoWord 7)
     (fun x y i h1 h2 => by
       rw [(demoFind_sound x i h1).1, (demoFind_sound y i h2).1])
     (fun x i h => (demoFind_sound x i h).2)
     (by decide) (by decide) (by decide) (by decide) (by decide)
     (by decide) (by decide)⟩
